import Mathlib

/-!
# Verification of temple's resource dependency graph and deterministic ordering engine

This file is a shallow embedding, in Lean 4, of the core of the `temple`
Go library: the resource data model (`css.go`, `js.go`), the dependency
graph builder (`buildGraphs` in `dag.go`), the deterministic topological
sorter (`sortNodes` / `walkGraph` in `dag.go`) and the slice of the render
pipeline that loads resource bodies (`getCSS` / `getJS`, `parseResource` /
`basicRender` in `render.go`).

Modelling conventions, chosen once and used throughout:

* Go strings are `String`, Go bools are `Bool`, Go slices are `List`.
* A Go `map[string]string` of extra attributes is modelled as an
  association list `List (String × String)`; Go `maps.Equal` is modelled
  by `mapsEqual`, which compares lookups over the union of the key sets
  (a Go map is exactly its lookup function).
* The relation-calculator fields of the Go structs are function-valued
  struct fields (`func(context.Context, CSSLink) ResourceRelationship`,
  nil when absent).  A Lean structure cannot mention itself in negative
  position, so the calculators are carried next to the data in the
  `cssResource` / `jsResource` constructors instead of inside the data
  structs; a calculator receives the candidate's data struct.  The
  `context.Context` argument is opaque to the whole engine (it is merely
  passed through), so it is dropped.
* The Go `graph` keeps two mutually inverse edge maps `edgesTo` /
  `edgesFrom` (`map[int]map[int]struct{}`); every write and delete in
  `dag.go` updates the two maps in lockstep, so the pair is modelled as a
  single duplicate-free list of directed edges `(u, v)` ("u depends on v",
  v must render first).  Map-set insertion is `insertEdge` (a no-op when
  the pair is present); checking `len(edgesFrom[pos]) < 1 || !ok` is
  checking that the list holds no pair with first component `pos`.
* Go map iteration order is unspecified; wherever `dag.go` iterates a map
  (`for child := range resources.edgesTo[pos]`) the model iterates the
  edge list in insertion order.  This is one fixed admissible schedule;
  the places where the schedule could matter are exactly the comparator
  ties that the determinism theorems make hypotheses about.
* `slices.SortFunc` (an unspecified unstable sort) is modelled by the
  stable insertion sort `insertionSortB`, again one fixed admissible
  refinement of the Go behaviour.
* The `walkGraph` loop terminates because `|edges| + |noParents|` strictly
  decreases; the model makes this fuel explicit (`walkLoop` receives
  exactly that number) so that the function is structurally recursive and
  computable by the kernel.
-/

namespace Temple

/-- `ResourceRelationship` from `resource_rel.go`: the verdict of a
relation calculator.  The Go values are strings `"after"`, `"before"`,
`"neutral"`; only their identity matters. -/
inductive ResourceRelationship where
  | after
  | before
  | neutral
deriving DecidableEq, Repr, Inhabited

/-- Association-list model of a Go `map[string]string`. -/
abbrev AttrMap := List (String × String)

/-- Go `maps.Equal` on the association-list model: the two maps are equal
iff they agree, as lookup functions, on every key of either map. -/
def mapsEqual (m1 m2 : AttrMap) : Bool :=
  (m1.map Prod.fst ++ m2.map Prod.fst).all (fun k => m1.lookup k == m2.lookup k)

/-- `CSSInline` from `css.go` (data fields only; the two relation
calculators live in the `cssResource` constructor, see the header
comment). -/
structure CSSInline where
  TemplatePath : String := ""
  Blocking : String := ""
  Media : String := ""
  Nonce : String := ""
  Title : String := ""
  Attrs : AttrMap := []
  DisableElementMerge : Bool := false
  DisableImplicitOrdering : Bool := false
deriving DecidableEq, Repr, Inhabited

/-- `CSSLink` from `css.go` (data fields only).  The Go field `Type` is
called `Type'` because `Type` is a Lean keyword. -/
structure CSSLink where
  Href : String := ""
  Rel : String := ""
  As : String := ""
  Blocking : String := ""
  CrossOrigin : String := ""
  Disabled : Bool := false
  FetchPriority : String := ""
  Integrity : String := ""
  Media : String := ""
  ReferrerPolicy : String := ""
  Title : String := ""
  Type' : String := ""
  Attrs : AttrMap := []
  DisableImplicitOrdering : Bool := false
  TemplatePath : String := ""
deriving DecidableEq, Repr, Inhabited

/-- The pair of relation-calculator fields shared by `CSSInline` and
`CSSLink` (`CSSLinkRelationCalculator`, `CSSInlineRelationCalculator`);
`none` models a nil Go function value. -/
structure CSSCalcs where
  CSSLinkRelationCalculator : Option (CSSLink → ResourceRelationship) := none
  CSSInlineRelationCalculator : Option (CSSInline → ResourceRelationship) := none
deriving Inhabited

/-- The `cssResource` interface of `css.go`: either a `CSSInline` or a
`CSSLink`, each together with its relation calculators. -/
inductive cssResource where
  | inl (block : CSSInline) (calcs : CSSCalcs)
  | lnk (tag : CSSLink) (calcs : CSSCalcs)
deriving Inhabited

/-- `JSInline` from `js.go` (data fields only).  `dag.go` reads a
`DisableImplicitOrdering` field off `JSInline`, so the struct carries it. -/
structure JSInline where
  TemplatePath : String := ""
  CrossOrigin : String := ""
  NoModule : Bool := false
  Nonce : String := ""
  ReferrerPolicy : String := ""
  Type' : String := ""
  Attrs : AttrMap := []
  DisableElementMerge : Bool := false
  DisableImplicitOrdering : Bool := false
  PlaceInFooter : Bool := false
deriving DecidableEq, Repr, Inhabited

/-- `JSLink` from `js.go` (data fields only). -/
structure JSLink where
  Src : String := ""
  Async : Bool := false
  AttributionSrc : Bool := false
  AttributionSrcURLs : String := ""
  Blocking : String := ""
  CrossOrigin : String := ""
  Defer : Bool := false
  FetchPriority : String := ""
  Integrity : String := ""
  NoModule : Bool := false
  Nonce : String := ""
  ReferrerPolicy : String := ""
  Type' : String := ""
  Attrs : AttrMap := []
  TemplatePath : String := ""
  DisableImplicitOrdering : Bool := false
  PlaceInFooter : Bool := false
deriving DecidableEq, Repr, Inhabited

/-- The pair of relation-calculator fields shared by `JSInline` and
`JSLink`. -/
structure JSCalcs where
  JSInlineRelationCalculator : Option (JSInline → ResourceRelationship) := none
  JSLinkRelationCalculator : Option (JSLink → ResourceRelationship) := none
deriving Inhabited

/-- The `jsResource` interface of `js.go`. -/
inductive jsResource where
  | inl (block : JSInline) (calcs : JSCalcs)
  | lnk (tag : JSLink) (calcs : JSCalcs)
deriving Inhabited

/-- `CSSInline.equal` from `css.go`: structural equality against another
`cssResource`, comparing the identity key and the rendering attributes and
ignoring the relation calculators (and `DisableImplicitOrdering`). -/
def CSSInline.equal (block : CSSInline) : cssResource → Bool
  | .inl comp _ =>
    block.TemplatePath == comp.TemplatePath &&
    block.Blocking == comp.Blocking &&
    block.Media == comp.Media &&
    block.Nonce == comp.Nonce &&
    block.Title == comp.Title &&
    mapsEqual block.Attrs comp.Attrs &&
    block.DisableElementMerge == comp.DisableElementMerge
  | .lnk _ _ => false

/-- `CSSLink.equal` from `css.go`. -/
def CSSLink.equal (tag : CSSLink) : cssResource → Bool
  | .lnk comp _ =>
    tag.Href == comp.Href &&
    tag.Rel == comp.Rel &&
    tag.As == comp.As &&
    tag.Blocking == comp.Blocking &&
    tag.CrossOrigin == comp.CrossOrigin &&
    tag.Disabled == comp.Disabled &&
    tag.FetchPriority == comp.FetchPriority &&
    tag.Integrity == comp.Integrity &&
    tag.Media == comp.Media &&
    tag.ReferrerPolicy == comp.ReferrerPolicy &&
    tag.Title == comp.Title &&
    tag.Type' == comp.Type' &&
    mapsEqual tag.Attrs comp.Attrs &&
    tag.TemplatePath == comp.TemplatePath
  | .inl _ _ => false

/-- Interface dispatch of `equal` on `cssResource`. -/
def cssResource.equal : cssResource → cssResource → Bool
  | .inl block _, other => block.equal other
  | .lnk tag _, other => tag.equal other

/-- `JSInline.equal` from `js.go`. -/
def JSInline.equal (block : JSInline) : jsResource → Bool
  | .inl comp _ =>
    block.TemplatePath == comp.TemplatePath &&
    block.CrossOrigin == comp.CrossOrigin &&
    block.NoModule == comp.NoModule &&
    block.Nonce == comp.Nonce &&
    block.ReferrerPolicy == comp.ReferrerPolicy &&
    block.Type' == comp.Type' &&
    mapsEqual block.Attrs comp.Attrs &&
    block.DisableElementMerge == comp.DisableElementMerge &&
    block.PlaceInFooter == comp.PlaceInFooter
  | .lnk _ _ => false

/-- `JSLink.equal` from `js.go`. -/
def JSLink.equal (tag : JSLink) : jsResource → Bool
  | .lnk comp _ =>
    tag.Src == comp.Src &&
    tag.Async == comp.Async &&
    tag.AttributionSrc == comp.AttributionSrc &&
    tag.AttributionSrcURLs == comp.AttributionSrcURLs &&
    tag.Blocking == comp.Blocking &&
    tag.CrossOrigin == comp.CrossOrigin &&
    tag.Defer == comp.Defer &&
    tag.FetchPriority == comp.FetchPriority &&
    tag.Integrity == comp.Integrity &&
    tag.NoModule == comp.NoModule &&
    tag.Nonce == comp.Nonce &&
    tag.ReferrerPolicy == comp.ReferrerPolicy &&
    tag.Type' == comp.Type' &&
    mapsEqual tag.Attrs comp.Attrs &&
    tag.TemplatePath == comp.TemplatePath &&
    tag.PlaceInFooter == comp.PlaceInFooter
  | .inl _ _ => false

/-- Interface dispatch of `equal` on `jsResource`. -/
def jsResource.equal : jsResource → jsResource → Bool
  | .inl block _, other => block.equal other
  | .lnk tag _, other => tag.equal other

/-- `CSSInline.getKey` from `css.go`. -/
def CSSInline.getKey (block : CSSInline) : String :=
  block.TemplatePath

/-- `CSSLink.getKey` from `css.go`. -/
def CSSLink.getKey (tag : CSSLink) : String :=
  if tag.TemplatePath != "" then tag.TemplatePath
  else ":::impractical.co/temple:defaultCSSLinkTemplate"

/-- `JSInline.getKey` from `js.go`. -/
def JSInline.getKey (block : JSInline) : String :=
  block.TemplatePath

/-- `JSLink.getKey` from `js.go`. -/
def JSLink.getKey (tag : JSLink) : String :=
  if tag.TemplatePath != "" then tag.TemplatePath
  else ":::impractical.co/temple:defaultJSLinkTemplate"

/-- Lexicographic order on character lists by code point.  Go's `<` on
strings is byte-wise lexicographic order on the UTF-8 encoding, which
coincides with code-point lexicographic order (UTF-8 is
order-preserving).  It is defined directly on `List Char` so that the
kernel can evaluate it (the library's `String` order does not reduce). -/
def ltCharList : List Char → List Char → Bool
  | _, [] => false
  | [], _ :: _ => true
  | c :: cs, d :: ds =>
    if c.toNat < d.toNat then true
    else if d.toNat < c.toNat then false
    else ltCharList cs ds

/-- Go's `<` on strings (see `ltCharList`). -/
def stringLt (a b : String) : Bool :=
  ltCharList a.data b.data

/-- `sortNodes` from `dag.go`, at type `cssResource` (the Go function is
one generic function over a type switch; its branches for CSS resources
are these; the `default:` panic branches are unreachable at this type).
Return value follows Go's `cmp` convention: negative means the first
argument sorts earlier. -/
def sortNodesCSS : cssResource → cssResource → Int
  | .inl first _, .inl second _ =>
    if stringLt first.getKey second.getKey then -1
    else if stringLt second.getKey first.getKey then 1
    else 0
  | .inl _ _, .lnk _ _ => 1
  | .lnk _ _, .inl _ _ => -1
  | .lnk first _, .lnk second _ =>
    if stringLt first.Href second.Href then -1
    else if stringLt second.Href first.Href then 1
    else 0

/-- `sortNodes` from `dag.go`, at type `jsResource`. -/
def sortNodesJS : jsResource → jsResource → Int
  | .inl first _, .inl second _ =>
    if stringLt first.getKey second.getKey then -1
    else if stringLt second.getKey first.getKey then 1
    else 0
  | .inl _ _, .lnk _ _ => 1
  | .lnk _ _, .inl _ _ => -1
  | .lnk first _, .lnk second _ =>
    if stringLt first.Src second.Src then -1
    else if stringLt second.Src first.Src then 1
    else 0

/-! ## A stable insertion sort

`slices.SortFunc` sorts ascending with respect to an `Int`-valued
comparator; its behaviour on comparator ties is unspecified.  The model
fixes the stable insertion sort as one admissible refinement. -/

/-- Insert `a` into `l`, before the first element `b` with `le a b`. -/
def orderedInsertB (le : α → α → Bool) (a : α) : List α → List α
  | [] => [a]
  | b :: l => if le a b then a :: b :: l else b :: orderedInsertB le a l

/-- Stable insertion sort, ascending with respect to `le`. -/
def insertionSortB (le : α → α → Bool) : List α → List α
  | [] => []
  | a :: l => orderedInsertB le a (insertionSortB le l)

/-! ## The graph model (`graph` from `dag.go`) -/

/-- `graph[Type]` from `dag.go`.  `nodes` is the node slice (a node is
identified by its index); `edges` is the single duplicate-free edge list
standing for the lockstep pair `edgesTo` / `edgesFrom` (see header).  An
edge `(u, v)` means `u` depends on `v`: `v` is always rendered first. -/
structure Graph (Node : Type u) where
  nodes : List Node
  edges : List (Nat × Nat)

/-- Go map-set insertion `m[u][v] = struct{}{}` on the edge-list model:
a no-op when the edge is already present. -/
def insertEdge (E : List (Nat × Nat)) (e : Nat × Nat) : List (Nat × Nat) :=
  if e ∈ E then E else E ++ [e]

/-- `sortNodesByPos` from `dag.go`: compare two node positions via the
comparator on the nodes stored there, as a `Bool`-valued "less or equal"
usable by `insertionSortB` (`slices.SortFunc` orders `a` no later than `b`
exactly when the comparator is `≤ 0`). -/
def sortNodesByPos (cmp : Node → Node → Int) [Inhabited Node]
    (nodes : List Node) (a b : Nat) : Bool :=
  cmp (nodes.getD a default) (nodes.getD b default) ≤ 0

/-- The structured content of the error `walkGraph` returns when edges
remain after the ready set is exhausted: the Go error wraps
`ErrResourceCycle` and formats, from the surviving `edgesTo` / `edgesFrom`
maps, the set of unresolved edges plus a human-readable identity string
for every node of the graph.  The model keeps the data the message is
formatted from. -/
structure cycleError where
  /-- The unresolved edges (contents of both surviving maps). -/
  edgesLeft : List (Nat × Nat)
  /-- The human-readable resource identities, one per node of the graph,
  in node order (`CSSLink(href)`, `CSSInline(path)`, ...). -/
  resourceIDs : List String
deriving Repr

/-- The loop body of `walkGraph` from `dag.go` (lines 480-503): pop the
least ready position, output it, drop every edge pointing to it, and make
any node whose dependency set became empty ready, re-sorting the ready
list when it changed.  `fuel` is `|edges| + |ready|` at entry, which
strictly decreases every iteration, so the zero-fuel branch is never
reached from `walkGraph` (the lemmas below thread that bound). -/
def walkLoop (le : Nat → Nat → Bool) :
    Nat → List (Nat × Nat) → List Nat → List Nat → List Nat × List (Nat × Nat)
  | _, E, [], acc => (acc, E)
  | 0, E, _ :: _, acc => (acc, E)
  | fuel + 1, E, pos :: rest, acc =>
    let E' := E.filter (fun e => !(e.2 == pos))
    let children := (E.filter (fun e => e.2 == pos)).map Prod.fst
    let newReady :=
      children.filter (fun c => (E'.filter (fun e => e.1 == c)).isEmpty)
    let ready' := if newReady.isEmpty then rest
                  else insertionSortB le (rest ++ newReady)
    walkLoop le fuel E' ready' (acc ++ [pos])

/-- `walkGraph` from `dag.go`, position level: compute the sorted initial
ready set (`noParents`), run the loop, and fail with the unresolved edges
and the node identities when edges survive.  `resourceID` is the
type-switch of lines 520-533 rendering a node's identity. -/
def walkGraphPos [Inhabited Node] (cmp : Node → Node → Int)
    (resourceID : Node → String) (g : Graph Node) :
    Except cycleError (List Nat) :=
  let le := sortNodesByPos cmp g.nodes
  let noParents := insertionSortB le
    ((List.range g.nodes.length).filter
      (fun pos => (g.edges.filter (fun e => e.1 == pos)).isEmpty))
  let out := walkLoop le (g.edges.length + noParents.length) g.edges noParents []
  if out.2.isEmpty then .ok out.1
  else .error { edgesLeft := out.2, resourceIDs := g.nodes.map resourceID }

/-- `walkGraph` from `dag.go`, node level: the returned positions read
back through the node slice. -/
def walkGraph [Inhabited Node] (cmp : Node → Node → Int)
    (resourceID : Node → String) (g : Graph Node) :
    Except cycleError (List Node) :=
  (walkGraphPos cmp resourceID g).map
    (fun ps => ps.map (fun p => g.nodes.getD p default))

/-- The initial ready list of `walkGraph` (`noParents` after the initial
scan and sort), as a standalone definition (definitionally the term
inside `walkGraphPos`). -/
def walkInitReady [Inhabited Node] (cmp : Node → Node → Int)
    (g : Graph Node) : List Nat :=
  insertionSortB (sortNodesByPos cmp g.nodes)
    ((List.range g.nodes.length).filter
      (fun pos => (g.edges.filter (fun e => e.1 == pos)).isEmpty))

/-- The loop run inside `walkGraphPos`, as a standalone definition. -/
def walkRun [Inhabited Node] (cmp : Node → Node → Int)
    (g : Graph Node) : List Nat × List (Nat × Nat) :=
  walkLoop (sortNodesByPos cmp g.nodes)
    (g.edges.length + (walkInitReady cmp g).length)
    g.edges (walkInitReady cmp g) []

/-- The CSS arm of the resource-identity type switch in `walkGraph`
(lines 520-533 of `dag.go`). -/
def cssResourceID : cssResource → String
  | .lnk tag _ => "CSSLink(" ++ tag.Href ++ ")"
  | .inl block _ => "CSSInline(" ++ block.TemplatePath ++ ")"

/-- The JavaScript arm of the resource-identity type switch in
`walkGraph`. -/
def jsResourceID : jsResource → String
  | .lnk tag _ => "JSLink(" ++ tag.Src ++ ")"
  | .inl block _ => "JSInline(" ++ block.TemplatePath ++ ")"

/-! ## Collection phase of `buildGraphs` (`dag.go` lines 68-240) -/

/-- A `Component` with its four optional resource capabilities.  In Go a
component is an interface value probed with type assertions for
`CSSLinker`, `CSSEmbedder`, `JSLinker`, `JSEmbedder`; `none` models a
component that does not implement the capability.  Each declared resource
is a data struct together with its relation-calculator fields. -/
structure Component where
  LinkCSS : Option (List (CSSLink × CSSCalcs)) := none
  EmbedCSS : Option (List (CSSInline × CSSCalcs)) := none
  LinkJS : Option (List (JSLink × JSCalcs)) := none
  EmbedJS : Option (List (JSInline × JSCalcs)) := none

/-- The condition of `dag.go` lines 94/121: the resource carries a
relation calculator or opts out of implicit ordering, so it neither
receives an implicit edge nor becomes the `lastLink` anchor. -/
def cssSkip : cssResource → Bool
  | .inl block calcs =>
    calcs.CSSInlineRelationCalculator.isSome ||
    calcs.CSSLinkRelationCalculator.isSome || block.DisableImplicitOrdering
  | .lnk tag calcs =>
    calcs.CSSInlineRelationCalculator.isSome ||
    calcs.CSSLinkRelationCalculator.isSome || tag.DisableImplicitOrdering

/-- The condition of `dag.go` lines 149/171/200/222 for JavaScript
resources. -/
def jsSkip : jsResource → Bool
  | .inl block calcs =>
    calcs.JSInlineRelationCalculator.isSome ||
    calcs.JSLinkRelationCalculator.isSome || block.DisableImplicitOrdering
  | .lnk tag calcs =>
    calcs.JSInlineRelationCalculator.isSome ||
    calcs.JSLinkRelationCalculator.isSome || tag.DisableImplicitOrdering

/-- `PlaceInFooter` read off a `jsResource` (the routing flag of
`dag.go` lines 142/193). -/
def jsResource.PlaceInFooter : jsResource → Bool
  | .inl block _ => block.PlaceInFooter
  | .lnk tag _ => tag.PlaceInFooter

/-- One iteration of the collection loops of `buildGraphs` (`dag.go`
lines 87-109 and their three clones): skip the resource when a
structurally equal node exists (`slices.ContainsFunc`), otherwise append
it as a new node; when it carries no relation calculator and does not
disable implicit ordering, link it to the previous such node of the same
invocation (`lastLink`, modelled as `Option Nat`) and become the new
anchor. -/
def collectStep (eq : R → R → Bool) (skip : R → Bool)
    (st : Graph R × Option Nat) (r : R) : Graph R × Option Nat :=
  let g := st.1
  if g.nodes.any (fun existing => eq r existing) then st
  else
    let nodes' := g.nodes ++ [r]
    if skip r then (⟨nodes', g.edges⟩, st.2)
    else
      let thisNode := nodes'.length - 1
      match st.2 with
      | some lastL => (⟨nodes', insertEdge g.edges (thisNode, lastL)⟩, some thisNode)
      | none => (⟨nodes', g.edges⟩, some thisNode)

/-- One full capability invocation: fold `collectStep` over the returned
resource list, starting with no anchor (`lastLink := -1`). -/
def collectResources (eq : R → R → Bool) (skip : R → Bool)
    (g : Graph R) (rs : List R) : Graph R :=
  (rs.foldl (collectStep eq skip) (g, none)).1

/-- One iteration of the JavaScript collection loops (`dag.go` lines
141-187 and 192-238): the resource is routed to the footer or header
graph by `PlaceInFooter`, each bucket threading its own anchor. -/
def collectJSStep
    (st : (Graph jsResource × Option Nat) × (Graph jsResource × Option Nat))
    (r : jsResource) :
    (Graph jsResource × Option Nat) × (Graph jsResource × Option Nat) :=
  if r.PlaceInFooter then (st.1, collectStep jsResource.equal jsSkip st.2 r)
  else (collectStep jsResource.equal jsSkip st.1 r, st.2)

/-- One full JavaScript capability invocation over the header and footer
graphs (`lastHeadLink, lastFootLink := -1, -1` then the routed loop). -/
def collectJS (headJS footJS : Graph jsResource) (rs : List jsResource) :
    Graph jsResource × Graph jsResource :=
  let st := rs.foldl collectJSStep ((headJS, none), (footJS, none))
  (st.1.1, st.2.1)

/-- `resourceGraphs` from `dag.go`. -/
structure resourceGraphs where
  css : Graph cssResource
  headJS : Graph jsResource
  footJS : Graph jsResource

/-- The collection phase of `buildGraphs` for one component, in source
order: `LinkCSS`, `EmbedCSS`, `LinkJS`, `EmbedJS`. -/
def buildComponent (gs : resourceGraphs) (component : Component) :
    resourceGraphs :=
  let css := match component.LinkCSS with
    | none => gs.css
    | some links =>
      collectResources cssResource.equal cssSkip gs.css
        (links.map (fun (lc : CSSLink × CSSCalcs) => cssResource.lnk lc.1 lc.2))
  let css := match component.EmbedCSS with
    | none => css
    | some blocks =>
      collectResources cssResource.equal cssSkip css
        (blocks.map (fun (bc : CSSInline × CSSCalcs) => cssResource.inl bc.1 bc.2))
  let js := match component.LinkJS with
    | none => (gs.headJS, gs.footJS)
    | some links =>
      collectJS gs.headJS gs.footJS
        (links.map (fun (lc : JSLink × JSCalcs) => jsResource.lnk lc.1 lc.2))
  let js := match component.EmbedJS with
    | none => js
    | some blocks =>
      collectJS js.1 js.2
        (blocks.map (fun (bc : JSInline × JSCalcs) => jsResource.inl bc.1 bc.2))
  ⟨css, js.1, js.2⟩

/-- The collection phase of `buildGraphs` over the component list
(`dag.go` lines 68-240), starting from three empty graphs. -/
def buildGraphsCollect (components : List Component) : resourceGraphs :=
  components.foldl buildComponent ⟨⟨[], []⟩, ⟨[], []⟩, ⟨[], []⟩⟩

/-! ## Explicit-edge phase of `buildGraphs` (`dag.go` lines 241-384) -/

/-- The `CSSLinkRelationCalculator` selected by the type switch of
`dag.go` lines 244-251. -/
def cssResource.linkCalc : cssResource → Option (CSSLink → ResourceRelationship)
  | .inl _ calcs => calcs.CSSLinkRelationCalculator
  | .lnk _ calcs => calcs.CSSLinkRelationCalculator

/-- The `CSSInlineRelationCalculator` selected by the type switch of
`dag.go` lines 244-251. -/
def cssResource.inlineCalc : cssResource → Option (CSSInline → ResourceRelationship)
  | .inl _ calcs => calcs.CSSInlineRelationCalculator
  | .lnk _ calcs => calcs.CSSInlineRelationCalculator

/-- The verdict switch of `dag.go` lines 269-290: `After` makes this node
depend on the candidate (edge `pos → compPos`), `Before` makes the
candidate depend on this node (edge `compPos → pos`), `Neutral` adds
nothing. -/
def applyVerdict (E : List (Nat × Nat)) (pos compPos : Nat) :
    ResourceRelationship → List (Nat × Nat)
  | .after => insertEdge E (pos, compPos)
  | .before => insertEdge E (compPos, pos)
  | .neutral => E

/-- The inner candidate loop of the CSS explicit-edge phase (`dag.go`
lines 255-291) for the node `resource` at position `pos`: candidates
whose concrete kind has no matching calculator are skipped (`continue`). -/
def cssExplicitForNode (nodes : List cssResource) (E : List (Nat × Nat))
    (pos : Nat) (resource : cssResource) : List (Nat × Nat) :=
  if resource.linkCalc.isNone && resource.inlineCalc.isNone then E
  else
    nodes.enum.foldl (fun E pc =>
      match pc.2 with
      | .inl comp _ =>
        match resource.inlineCalc with
        | none => E
        | some f => applyVerdict E pos pc.1 (f comp)
      | .lnk comp _ =>
        match resource.linkCalc with
        | none => E
        | some f => applyVerdict E pos pc.1 (f comp)) E

/-- The CSS explicit-edge phase (`dag.go` lines 241-292): every node is
compared against every node of the same graph. -/
def cssExplicitEdges (nodes : List cssResource) (E : List (Nat × Nat)) :
    List (Nat × Nat) :=
  nodes.enum.foldl (fun E pr => cssExplicitForNode nodes E pr.1 pr.2) E

/-- The `JSLinkRelationCalculator` selected by the type switch of
`dag.go` lines 296-303. -/
def jsResource.linkCalc : jsResource → Option (JSLink → ResourceRelationship)
  | .inl _ calcs => calcs.JSLinkRelationCalculator
  | .lnk _ calcs => calcs.JSLinkRelationCalculator

/-- The `JSInlineRelationCalculator` selected by the type switch of
`dag.go` lines 296-303. -/
def jsResource.inlineCalc : jsResource → Option (JSInline → ResourceRelationship)
  | .inl _ calcs => calcs.JSInlineRelationCalculator
  | .lnk _ calcs => calcs.JSInlineRelationCalculator

/-- The inner candidate loop of the JavaScript explicit-edge phase
(`dag.go` lines 307-337 and 353-383).  Unlike the CSS loop, the matching
calculator is invoked with no nil check: when the node has at least one
calculator but the one matching the candidate's kind is nil, Go calls a
nil function and panics — modelled by `none`. -/
def jsExplicitForNode (E : List (Nat × Nat))
    (pos : Nat) (resource : jsResource) (nodes : List jsResource) :
    Option (List (Nat × Nat)) :=
  if resource.linkCalc.isNone && resource.inlineCalc.isNone then some E
  else
    nodes.enum.foldlM (fun E pc =>
      match pc.2 with
      | .inl comp _ =>
        match resource.inlineCalc with
        | none => none
        | some f => some (applyVerdict E pos pc.1 (f comp))
      | .lnk comp _ =>
        match resource.linkCalc with
        | none => none
        | some f => some (applyVerdict E pos pc.1 (f comp))) E

/-- The JavaScript explicit-edge phase for one graph (`dag.go` lines
293-338, and identically 339-384); `none` models the nil-calculator
panic. -/
def jsExplicitEdges (nodes : List jsResource) (E : List (Nat × Nat)) :
    Option (List (Nat × Nat)) :=
  nodes.enum.foldlM (fun E pr => jsExplicitForNode E pr.1 pr.2 nodes) E

/-- `buildGraphs` restricted to its CSS graph: the CSS collection loops
followed by the CSS explicit-edge phase (both total functions). -/
def buildGraphsCSS (components : List Component) : Graph cssResource :=
  let gs := buildGraphsCollect components
  ⟨gs.css.nodes, cssExplicitEdges gs.css.nodes gs.css.edges⟩

/-- `buildGraphs` from `dag.go`: collection phase then the three
explicit-edge phases; `none` models the nil-calculator panic of the
JavaScript phases. -/
def buildGraphs (components : List Component) : Option resourceGraphs :=
  let gs := buildGraphsCollect components
  match jsExplicitEdges gs.headJS.nodes gs.headJS.edges,
        jsExplicitEdges gs.footJS.nodes gs.footJS.edges with
  | some headE, some footE =>
    some ⟨⟨gs.css.nodes, cssExplicitEdges gs.css.nodes gs.css.edges⟩,
          ⟨gs.headJS.nodes, headE⟩, ⟨gs.footJS.nodes, footE⟩⟩
  | _, _ => none

/-! ## The resource-loading slice of the render pipeline
(`getCSS` / `getJS` from `css.go` / `js.go`, `parseResource` and the
resource loops of `basicRender` from `render.go`)

The virtual filesystem `fs.FS` is modelled as an association list from
paths to file contents.  The template literals that `getCSS` / `getJS`
wrap around the file contents carry `html/template` attribute directives
that are irrelevant to every claim; the model keeps bare `<style>` /
`<script>` / `<link>` wrappers.  `parseResource` is modelled on its
cache-less path (no `ResourceCacher`), where the body is read through the
getter and any error aborts. -/

/-- The errors of the resource-loading boundary:
`ErrCSSInlineTemplatePathNotSet`, `ErrJSInlineTemplatePathNotSet` and a
filesystem not-found error. -/
inductive resourceError where
  | cssInlineTemplatePathNotSet
  | jsInlineTemplatePathNotSet
  | fileNotFound (path : String)
deriving DecidableEq, Repr

/-- The filesystem collaborator: `fs.ReadFile` on the association-list
model. -/
def fsReadFile (dir : List (String × String)) (path : String) :
    Except resourceError String :=
  match dir.lookup path with
  | some contents => .ok contents
  | none => .error (.fileNotFound path)

/-- The guard `strings.TrimSpace(path) == ""` of `getCSS` / `getJS`:
the path trims to the empty string exactly when every character is
whitespace.  (Defined via `List.all` on the character data so the kernel
can evaluate it; Go's Unicode white-space set is restricted to the ASCII
white-space characters, which is all the claims exercise.) -/
def trimSpaceIsEmpty (s : String) : Bool :=
  s.data.all (fun c => c == ' ' || c == '\t' || c == '\n' || c == '\r')

/-- `CSSInline.getCSS` from `css.go`: reject a blank `TemplatePath` with
`ErrCSSInlineTemplatePathNotSet`, otherwise read the template body and
wrap it in a `<style>` block. -/
def CSSInline.getCSS (block : CSSInline) (dir : List (String × String)) :
    Except resourceError String :=
  if trimSpaceIsEmpty block.TemplatePath then .error .cssInlineTemplatePathNotSet
  else (fsReadFile dir block.TemplatePath).map
    (fun contents => "<style>\n" ++ contents ++ "\n</style>")

/-- `CSSLink.getCSS` from `css.go`: read the override template when
`TemplatePath` is set, otherwise the default `<link>` template. -/
def CSSLink.getCSS (tag : CSSLink) (dir : List (String × String)) :
    Except resourceError String :=
  if tag.TemplatePath ≠ "" then fsReadFile dir tag.TemplatePath
  else .ok "<link>"

/-- `JSInline.getJS` from `js.go`: reject a blank `TemplatePath` with
`ErrJSInlineTemplatePathNotSet`, otherwise read the template body and
wrap it in a `<script>` block. -/
def JSInline.getJS (block : JSInline) (dir : List (String × String)) :
    Except resourceError String :=
  if trimSpaceIsEmpty block.TemplatePath then .error .jsInlineTemplatePathNotSet
  else (fsReadFile dir block.TemplatePath).map
    (fun contents => "<script>\n" ++ contents ++ "\n</script>")

/-- `JSLink.getJS` from `js.go`. -/
def JSLink.getJS (tag : JSLink) (dir : List (String × String)) :
    Except resourceError String :=
  if tag.TemplatePath ≠ "" then fsReadFile dir tag.TemplatePath
  else .ok "<script></script>"

/-- Interface dispatch of `getCSS` on `cssResource`. -/
def cssResource.getCSS : cssResource → List (String × String) → Except resourceError String
  | .inl block _, dir => block.getCSS dir
  | .lnk tag _, dir => tag.getCSS dir

/-- Interface dispatch of `getJS` on `jsResource`. -/
def jsResource.getJS : jsResource → List (String × String) → Except resourceError String
  | .inl block _, dir => block.getJS dir
  | .lnk tag _, dir => tag.getJS dir

/-- `parseResource` from `render.go`, cache-less path: read the resource
body through its getter; an error aborts, success parses the body into
the template set (parsing itself is a boundary concern the model treats
as always succeeding). -/
def parseResource (dir : List (String × String))
    (getFunc : List (String × String) → Except resourceError String) :
    Except resourceError Unit :=
  (getFunc dir).map (fun _ => ())

/-- The CSS resource loop of `basicRender` (`render.go` lines 243-249 and
258-263): the sorted resources are parsed in order and the first error
aborts the whole render. -/
def parseCSSResources (dir : List (String × String))
    (resources : List cssResource) : Except resourceError Unit :=
  resources.foldlM (fun _ r => parseResource dir r.getCSS) ()

/-- The JavaScript resource loops of `basicRender`. -/
def parseJSResources (dir : List (String × String))
    (resources : List jsResource) : Except resourceError Unit :=
  resources.foldlM (fun _ r => parseResource dir r.getJS) ()

/-! ## Specification-side definitions

The definitions below do not model Go code; they are the vocabulary in
which the theorems characterise the code's behaviour. -/

/-- Well-formedness of an edge list over `n` nodes: every endpoint is a
node index and the list is duplicate-free (it denotes the Go map-set
pair). -/
def edgesWF (E : List (Nat × Nat)) (n : Nat) : Prop :=
  E.Nodup ∧ ∀ e ∈ E, e.1 < n ∧ e.2 < n

/-- Well-formedness of a graph. -/
def GraphWF (g : Graph Node) : Prop :=
  edgesWF g.edges g.nodes.length

/-- The one-step dependency relation of an edge list. -/
def edgeStep (E : List (Nat × Nat)) (u v : Nat) : Prop :=
  (u, v) ∈ E

/-- A graph is acyclic when no node depends on itself through one or more
edges. -/
def Acyclic (E : List (Nat × Nat)) : Prop :=
  ∀ v, ¬ Relation.TransGen (edgeStep E) v v

/-- Sortedness with respect to a `Bool`-valued "less or equal". -/
def SortedB (le : α → α → Bool) (l : List α) : Prop :=
  l.Pairwise (fun a b => le a b = true)

/-- `v` occurs strictly before `u` in `l`. -/
def before (l : List Nat) (v u : Nat) : Prop :=
  [v, u].Sublist l

/-- The implicit-edge chain of one capability invocation: each index is
linked to the previous index of the list, the first to the incoming
anchor (`none` at the start of an invocation, so the first eligible
resource of an invocation receives no edge). -/
def chainEdges : Option Nat → List Nat → List (Nat × Nat)
  | _, [] => []
  | none, t :: rest => chainEdges (some t) rest
  | some lastL, t :: rest => (t, lastL) :: chainEdges (some t) rest

/-- The indices (in the grown node slice) of the resources of one
invocation that are newly added and eligible for implicit ordering (not
deduplicated, no relation calculator, implicit ordering not disabled).
This is the projection of the collection fold that the implicit-edge
characterisation is stated with. -/
def collectNewEligibles (eq : R → R → Bool) (skip : R → Bool)
    (nodes : List R) : List R → List Nat
  | [] => []
  | r :: rest =>
    if nodes.any (fun existing => eq r existing) then
      collectNewEligibles eq skip nodes rest
    else if skip r then collectNewEligibles eq skip (nodes ++ [r]) rest
    else nodes.length :: collectNewEligibles eq skip (nodes ++ [r]) rest

/-- Replace the relation calculators of a CSS resource, keeping its
data. -/
def cssResource.withCalcs : cssResource → CSSCalcs → cssResource
  | .inl block _, c => .inl block c
  | .lnk tag _, c => .lnk tag c

/-- Replace the relation calculators of a JavaScript resource, keeping
its data. -/
def jsResource.withCalcs : jsResource → JSCalcs → jsResource
  | .inl block _, c => .inl block c
  | .lnk tag _, c => .lnk tag c

/-- The verdict the CSS explicit-edge phase computes for the node
`this` against the candidate `cand`: the calculator of `this` matching
the candidate's concrete kind, applied to the candidate's data, `none`
when that calculator is absent (the phase then skips the candidate). -/
def cssVerdict (this cand : cssResource) : Option ResourceRelationship :=
  match cand with
  | .inl comp _ => this.inlineCalc.map (fun f => f comp)
  | .lnk comp _ => this.linkCalc.map (fun f => f comp)

/-- The verdict of the JavaScript explicit-edge phase, same shape as
`cssVerdict` (`none` is where the Go code would call a nil function). -/
def jsVerdict (this cand : jsResource) : Option ResourceRelationship :=
  match cand with
  | .inl comp _ => this.inlineCalc.map (fun f => f comp)
  | .lnk comp _ => this.linkCalc.map (fun f => f comp)

/-- The set of explicit edges the CSS phase derives from the calculator
verdicts over a node slice: `After` at `(p, q)` yields `(p, q)`, `Before`
at `(p, q)` yields `(q, p)`. -/
def explicitDerived (nodes : List cssResource) (e : Nat × Nat) : Prop :=
  (∃ rp rq, nodes[e.1]? = some rp ∧ nodes[e.2]? = some rq ∧
    cssVerdict rp rq = some .after) ∨
  (∃ rp rq, nodes[e.2]? = some rp ∧ nodes[e.1]? = some rq ∧
    cssVerdict rp rq = some .before)

/-- The edges surviving one `walkLoop` step popping `pos`: every edge
pointing at `pos` is dropped. -/
def stepEdges (E : List (Nat × Nat)) (pos : Nat) : List (Nat × Nat) :=
  E.filter (fun e => !(e.2 == pos))

/-- The children visited by one `walkLoop` step popping `pos`: the
sources of the dropped edges. -/
def stepChildren (E : List (Nat × Nat)) (pos : Nat) : List Nat :=
  (E.filter (fun e => e.2 == pos)).map Prod.fst

/-- The children that become ready in one `walkLoop` step popping `pos`:
those with no surviving dependency edge. -/
def stepNewReady (E : List (Nat × Nat)) (pos : Nat) : List Nat :=
  (stepChildren E pos).filter
    (fun c => ((stepEdges E pos).filter (fun e => e.1 == c)).isEmpty)

/-- The ready list after one `walkLoop` step popping `pos`: unchanged
when no child became ready, otherwise re-sorted. -/
def stepReady (le : Nat → Nat → Bool) (E : List (Nat × Nat)) (pos : Nat)
    (rest : List Nat) : List Nat :=
  if (stepNewReady E pos).isEmpty then rest
  else insertionSortB le (rest ++ stepNewReady E pos)

/-- The loop invariant of `walkGraph`, relating the original edge list
`E₀` and node count `n` to the current edge list `E`, ready list `ready`
(Go's `noParents`) and output-so-far `acc`.  It packages: edges only ever
shrink; ready positions have no outstanding dependencies; no position is
ready or output twice; every position is output, ready, or blocked;
output positions have no outstanding dependencies; surviving edges point
at positions not yet output; an edge disappears only when its target is
output; and the output so far is topologically consistent. -/
structure WalkInv (E₀ : List (Nat × Nat)) (n : Nat)
    (E : List (Nat × Nat)) (ready : List Nat) (acc : List Nat) : Prop where
  sub : ∀ e ∈ E, e ∈ E₀
  nodupE : E.Nodup
  wf0 : ∀ e ∈ E₀, e.1 < n ∧ e.2 < n
  readyNoOut : ∀ p ∈ ready, E.filter (fun e => e.1 == p) = []
  readyLt : ∀ p ∈ ready, p < n
  accLt : ∀ p ∈ acc, p < n
  nodupAll : (acc ++ ready).Nodup
  cover : ∀ p, p < n → p ∈ acc ∨ p ∈ ready ∨ E.filter (fun e => e.1 == p) ≠ []
  accNoOut : ∀ p ∈ acc, E.filter (fun e => e.1 == p) = []
  targetsNotAcc : ∀ e ∈ E, e.2 ∉ acc
  gone : ∀ e ∈ E₀, e ∉ E → e.2 ∈ acc
  topo : ∀ e ∈ E₀, e.1 ∈ acc → before acc e.2 e.1

/-! ## Lemmas about the insertion sort -/

theorem orderedInsertB_perm (le : α → α → Bool) (a : α) :
    ∀ l : List α, List.Perm (orderedInsertB le a l) (a :: l)
  | [] => List.Perm.refl _
  | b :: l => by
    unfold orderedInsertB
    split
    · exact List.Perm.refl _
    · exact ((orderedInsertB_perm le a l).cons b).trans (List.Perm.swap a b l)

theorem insertionSortB_perm (le : α → α → Bool) :
    ∀ l : List α, List.Perm (insertionSortB le l) l
  | [] => List.Perm.refl _
  | a :: l =>
    (orderedInsertB_perm le a (insertionSortB le l)).trans
      ((insertionSortB_perm le l).cons a)

theorem mem_insertionSortB (le : α → α → Bool) {l : List α} {x : α} :
    x ∈ insertionSortB le l ↔ x ∈ l :=
  (insertionSortB_perm le l).mem_iff

theorem length_insertionSortB (le : α → α → Bool) (l : List α) :
    (insertionSortB le l).length = l.length :=
  (insertionSortB_perm le l).length_eq

theorem nodup_insertionSortB (le : α → α → Bool) {l : List α}
    (h : l.Nodup) : (insertionSortB le l).Nodup :=
  ((insertionSortB_perm le l).nodup_iff).2 h

theorem sortedB_orderedInsertB (le : α → α → Bool)
    (htot : ∀ a b : α, le a b = true ∨ le b a = true)
    (htrans : ∀ a b c : α, le a b = true → le b c = true → le a c = true)
    (a : α) : ∀ l : List α, SortedB le l → SortedB le (orderedInsertB le a l)
  | [], _ => List.pairwise_singleton _ _
  | b :: l, hs => by
    unfold orderedInsertB
    rcases List.pairwise_cons.1 hs with ⟨hb, hl⟩
    split
    · next hab =>
      refine List.pairwise_cons.2 ⟨?_, hs⟩
      intro x hx
      rcases List.mem_cons.1 hx with rfl | hx
      · exact hab
      · exact htrans a b x hab (hb x hx)
    · next hab =>
      refine List.pairwise_cons.2 ⟨?_, sortedB_orderedInsertB le htot htrans a l hl⟩
      intro x hx
      rcases List.mem_cons.1 ((orderedInsertB_perm le a l).mem_iff.1 hx) with rfl | hx
      · rcases htot x b with h | h
        · exact absurd h hab
        · exact h
      · exact hb x hx

theorem sortedB_insertionSortB (le : α → α → Bool)
    (htot : ∀ a b : α, le a b = true ∨ le b a = true)
    (htrans : ∀ a b c : α, le a b = true → le b c = true → le a c = true) :
    ∀ l : List α, SortedB le (insertionSortB le l)
  | [] => List.Pairwise.nil
  | a :: l =>
    sortedB_orderedInsertB le htot htrans a _ (sortedB_insertionSortB le htot htrans l)

theorem insertionSortB_eq_self_of_sorted (le : α → α → Bool) :
    ∀ l : List α, SortedB le l → insertionSortB le l = l
  | [], _ => rfl
  | a :: l, hs => by
    rcases List.pairwise_cons.1 hs with ⟨ha, hl⟩
    unfold insertionSortB
    rw [insertionSortB_eq_self_of_sorted le l hl]
    cases l with
    | nil => rfl
    | cons b l =>
      unfold orderedInsertB
      rw [if_pos (ha b (List.mem_cons_self b l))]

theorem eq_of_perm_of_sortedB (le : α → α → Bool) :
    ∀ {l₁ l₂ : List α}, List.Perm l₁ l₂ → SortedB le l₁ → SortedB le l₂ →
    (∀ a ∈ l₁, ∀ b ∈ l₁, le a b = true → le b a = true → a = b) →
    l₁ = l₂
  | [], [], _, _, _, _ => rfl
  | [], _ :: _, hp, _, _, _ => absurd hp.length_eq (by simp)
  | _ :: _, [], hp, _, _, _ => absurd hp.length_eq (by simp)
  | a :: l₁, b :: l₂, hp, hs₁, hs₂, hanti => by
    rcases List.pairwise_cons.1 hs₁ with ⟨ha, hl₁⟩
    rcases List.pairwise_cons.1 hs₂ with ⟨hb, hl₂⟩
    have hab : a = b := by
      by_cases hab : a = b
      · exact hab
      · have hamem : a ∈ b :: l₂ := hp.mem_iff.1 (List.mem_cons_self a l₁)
        have hbmem : b ∈ a :: l₁ := hp.mem_iff.2 (List.mem_cons_self b l₂)
        have haz : a ∈ l₂ := by
          rcases List.mem_cons.1 hamem with h | h
          · exact absurd h hab
          · exact h
        have hbz : b ∈ l₁ := by
          rcases List.mem_cons.1 hbmem with h | h
          · exact absurd h (Ne.symm hab)
          · exact h
        exact hanti a (List.mem_cons_self a l₁) b (List.mem_cons_of_mem a hbz)
          (ha b hbz) (hb a haz)
    subst hab
    have := eq_of_perm_of_sortedB le hp.cons_inv hl₁ hl₂
      (fun x hx y hy h1 h2 =>
        hanti x (List.mem_cons_of_mem a hx) y (List.mem_cons_of_mem a hy) h1 h2)
    rw [this]

/-! ## Lemmas about the walk loop -/

theorem nodup_map_fst_of_snd_eq {l : List (Nat × Nat)} (pos : Nat)
    (hl : l.Nodup) (hsnd : ∀ e ∈ l, e.2 = pos) : (l.map Prod.fst).Nodup :=
  hl.map_on (fun x hx y hy hf =>
    Prod.ext hf ((hsnd x hx).trans (hsnd y hy).symm))

/-- With no edges at all, the loop drains the ready list in order. -/
theorem walkLoop_nil_edges (le : Nat → Nat → Bool) :
    ∀ (ready : List Nat) (fuel : Nat) (acc : List Nat),
      ready.length ≤ fuel →
      walkLoop le fuel [] ready acc = (acc ++ ready, [])
  | [], fuel, acc, _ => by cases fuel <;> simp [walkLoop]
  | pos :: rest, fuel + 1, acc, h => by
    have : rest.length ≤ fuel := by simpa using h
    simp only [walkLoop, List.filter_nil, List.map_nil, List.isEmpty_nil,
      if_true]
    rw [walkLoop_nil_edges le rest fuel (acc ++ [pos]) this]
    simp

/-- The step equation of `walkLoop` in terms of the step
abbreviations (definitional). -/
theorem walkLoop_cons (le : Nat → Nat → Bool) (fuel : Nat)
    (E : List (Nat × Nat)) (pos : Nat) (rest acc : List Nat) :
    walkLoop le (fuel + 1) E (pos :: rest) acc =
      walkLoop le fuel (stepEdges E pos) (stepReady le E pos rest)
        (acc ++ [pos]) := rfl

/-- Membership in the post-step ready list. -/
theorem mem_stepReady (le : Nat → Nat → Bool)
    {E : List (Nat × Nat)} {pos : Nat} {rest : List Nat} {p : Nat} :
    p ∈ stepReady le E pos rest ↔ p ∈ rest ∨ p ∈ stepNewReady E pos := by
  unfold stepReady
  split
  · next h => simp [List.isEmpty_iff.1 h]
  · rw [mem_insertionSortB]
    exact List.mem_append

/-- Membership in the newly ready children. -/
theorem mem_stepNewReady {E : List (Nat × Nat)} {pos p : Nat} :
    p ∈ stepNewReady E pos ↔
      (p, pos) ∈ E ∧ (stepEdges E pos).filter (fun e => e.1 == p) = [] := by
  unfold stepNewReady stepChildren
  rw [List.mem_filter]
  constructor
  · rintro ⟨hc, hempty⟩
    rcases List.mem_map.1 hc with ⟨e, he, rfl⟩
    rcases List.mem_filter.1 he with ⟨heE, hsnd⟩
    have he2 : e.2 = pos := by simpa using hsnd
    have : e = (e.1, pos) := Prod.ext rfl he2
    exact ⟨this ▸ heE, List.isEmpty_iff.1 hempty⟩
  · rintro ⟨hmem, hempty⟩
    refine ⟨List.mem_map.2 ⟨(p, pos), List.mem_filter.2 ⟨hmem, by simp⟩, rfl⟩, ?_⟩
    rw [hempty]
    rfl

/-- The post-step ready list is a permutation of the old rest plus the
newly ready children. -/
theorem stepReady_perm (le : Nat → Nat → Bool)
    (E : List (Nat × Nat)) (pos : Nat) (rest : List Nat) :
    List.Perm (stepReady le E pos rest) (rest ++ stepNewReady E pos) := by
  unfold stepReady
  split
  · next h => rw [List.isEmpty_iff.1 h, List.append_nil]
  · exact insertionSortB_perm le _

/-- The newly ready children list has no duplicates. -/
theorem nodup_stepNewReady {E : List (Nat × Nat)} {pos : Nat}
    (hE : E.Nodup) : (stepNewReady E pos).Nodup := by
  refine List.Nodup.filter _ ?_
  exact nodup_map_fst_of_snd_eq pos (hE.filter _)
    (fun e he => by simpa using (List.mem_filter.1 he).2)

/-- An empty dependency filter is preserved by dropping edges. -/
theorem filter_nil_of_filter_nil {E : List (Nat × Nat)}
    {q : (Nat × Nat) → Bool} {p : Nat}
    (h : E.filter (fun e => e.1 == p) = []) :
    (E.filter q).filter (fun e => e.1 == p) = [] :=
  List.filter_eq_nil_iff.2 (fun e he =>
    List.filter_eq_nil_iff.1 h e (List.mem_of_mem_filter he))

/-- After one step, the surviving ready positions still have no
outstanding dependencies. -/
theorem readyNoOut_step (le : Nat → Nat → Bool)
    {E : List (Nat × Nat)} {pos : Nat} {rest : List Nat}
    (hready : ∀ p ∈ pos :: rest, E.filter (fun e => e.1 == p) = []) :
    ∀ p ∈ stepReady le E pos rest,
      (stepEdges E pos).filter (fun e => e.1 == p) = [] := by
  intro p hp
  rcases (mem_stepReady le).1 hp with h | h
  · exact filter_nil_of_filter_nil (hready p (List.mem_cons_of_mem pos h))
  · exact (mem_stepNewReady.1 h).2

/-- The loop measure `|edges| + |ready|` does not grow across one step
(the popped position itself accounts for the strict decrease). -/
theorem stepMeasure_le (le : Nat → Nat → Bool)
    (E : List (Nat × Nat)) (pos : Nat) (rest : List Nat) :
    (stepEdges E pos).length + (stepReady le E pos rest).length ≤
      E.length + rest.length := by
  have hsplit : E.length =
      (E.filter (fun e => e.2 == pos)).length + (stepEdges E pos).length := by
    unfold stepEdges
    exact List.length_eq_length_filter_add _
  have hlen : (stepReady le E pos rest).length ≤
      rest.length + (stepNewReady E pos).length := by
    unfold stepReady
    split
    · simp
    · rw [length_insertionSortB, List.length_append]
  have hnr : (stepNewReady E pos).length ≤
      (E.filter (fun e => e.2 == pos)).length := by
    unfold stepNewReady stepChildren
    exact le_trans (List.length_filter_le _ _) (le_of_eq (List.length_map _ _))
  omega

/-- A mutually blocking pair of edges survives the whole loop: neither
endpoint can ever be popped, so neither edge is ever dropped. -/
theorem walkLoop_cycle_persists (le : Nat → Nat → Bool) (u v : Nat) :
    ∀ (fuel : Nat) (E : List (Nat × Nat)) (ready acc : List Nat),
      (∀ p ∈ ready, E.filter (fun e => e.1 == p) = []) →
      (u, v) ∈ E → (v, u) ∈ E →
      (u, v) ∈ (walkLoop le fuel E ready acc).2 ∧
      (v, u) ∈ (walkLoop le fuel E ready acc).2
  | 0, E, ready, acc, _, huv, hvu => by
    cases ready <;> simpa [walkLoop] using ⟨huv, hvu⟩
  | fuel + 1, E, [], acc, _, huv, hvu => by
    simpa [walkLoop] using ⟨huv, hvu⟩
  | fuel + 1, E, pos :: rest, acc, hready, huv, hvu => by
    have hpos := hready pos (List.mem_cons_self pos rest)
    have hune : u ≠ pos := by
      rintro rfl
      exact List.filter_eq_nil_iff.1 hpos (u, v) huv (by simp)
    have hvne : v ≠ pos := by
      rintro rfl
      exact List.filter_eq_nil_iff.1 hpos (v, u) hvu (by simp)
    rw [walkLoop_cons]
    have huv' : (u, v) ∈ E.filter (fun e => !(e.2 == pos)) :=
      List.mem_filter.2 ⟨huv, by simpa using hvne⟩
    have hvu' : (v, u) ∈ E.filter (fun e => !(e.2 == pos)) :=
      List.mem_filter.2 ⟨hvu, by simpa using hune⟩
    exact walkLoop_cycle_persists le u v fuel _ _ _
      (readyNoOut_step le hready) huv' hvu'

/-- One step of the loop preserves the invariant. -/
theorem walkInv_step (le : Nat → Nat → Bool) {E₀ : List (Nat × Nat)} {n : Nat}
    {E : List (Nat × Nat)} {pos : Nat} {rest acc : List Nat}
    (inv : WalkInv E₀ n E (pos :: rest) acc) :
    WalkInv E₀ n (stepEdges E pos) (stepReady le E pos rest) (acc ++ [pos]) := by
  have hposNoOut : E.filter (fun e => e.1 == pos) = [] :=
    inv.readyNoOut pos (List.mem_cons_self pos rest)
  have hsubE : ∀ e ∈ stepEdges E pos, e ∈ E := fun e he =>
    List.mem_of_mem_filter he
  have hsndne : ∀ e ∈ stepEdges E pos, e.2 ≠ pos := by
    intro e he
    simpa using (List.mem_filter.1 he).2
  refine ⟨fun e he => inv.sub e (hsubE e he), inv.nodupE.filter _, inv.wf0,
    readyNoOut_step le inv.readyNoOut, ?_, ?_, ?_, ?_, ?_, ?_, ?_, ?_⟩
  · -- readyLt
    intro p hp
    rcases (mem_stepReady le).1 hp with h | h
    · exact inv.readyLt p (List.mem_cons_of_mem pos h)
    · exact (inv.wf0 _ (inv.sub _ (mem_stepNewReady.1 h).1)).1
  · -- accLt
    intro p hp
    rcases List.mem_append.1 hp with h | h
    · exact inv.accLt p h
    · rw [List.mem_singleton.1 h]
      exact inv.readyLt pos (List.mem_cons_self pos rest)
  · -- nodupAll
    have htarget : ((acc ++ pos :: rest) ++ stepNewReady E pos).Nodup := by
      rw [List.nodup_append]
      refine ⟨inv.nodupAll, nodup_stepNewReady inv.nodupE, ?_⟩
      intro c hc hc2
      have hcE : (c, pos) ∈ E := (mem_stepNewReady.1 hc2).1
      rcases List.mem_append.1 hc with h | h
      · exact List.filter_eq_nil_iff.1 (inv.accNoOut c h) (c, pos) hcE (by simp)
      · exact List.filter_eq_nil_iff.1 (inv.readyNoOut c h) (c, pos) hcE (by simp)
    have p1 : List.Perm ((acc ++ [pos]) ++ stepReady le E pos rest)
        ((acc ++ [pos]) ++ (rest ++ stepNewReady E pos)) :=
      List.Perm.append_left _ (stepReady_perm le E pos rest)
    have p2 : (acc ++ [pos]) ++ (rest ++ stepNewReady E pos) =
        (acc ++ pos :: rest) ++ stepNewReady E pos := by simp
    exact (p2 ▸ p1).nodup_iff.2 htarget
  · -- cover
    intro p hp
    rcases inv.cover p hp with h | h | h
    · exact Or.inl (List.mem_append.2 (Or.inl h))
    · rcases List.mem_cons.1 h with rfl | h
      · exact Or.inl (by simp)
      · exact Or.inr (Or.inl ((mem_stepReady le).2 (Or.inl h)))
    · by_cases hsf : (stepEdges E pos).filter (fun e => e.1 == p) = []
      · obtain ⟨e, hef⟩ := List.exists_mem_of_ne_nil _ h
        rcases List.mem_filter.1 hef with ⟨heE, hefst⟩
        have hefst' : e.1 = p := by simpa using hefst
        have hsnd : e.2 = pos := by
          by_contra hne
          have heS : e ∈ stepEdges E pos :=
            List.mem_filter.2 ⟨heE, by simpa using hne⟩
          exact List.filter_eq_nil_iff.1 hsf e heS hefst
        have hppos : (p, pos) ∈ E := by
          have : e = (p, pos) := Prod.ext hefst' hsnd
          exact this ▸ heE
        exact Or.inr (Or.inl ((mem_stepReady le).2
          (Or.inr (mem_stepNewReady.2 ⟨hppos, hsf⟩))))
      · exact Or.inr (Or.inr hsf)
  · -- accNoOut
    intro p hp
    rcases List.mem_append.1 hp with h | h
    · exact filter_nil_of_filter_nil (inv.accNoOut p h)
    · rw [List.mem_singleton.1 h]
      exact filter_nil_of_filter_nil hposNoOut
  · -- targetsNotAcc
    intro e he hmem
    rcases List.mem_append.1 hmem with h | h
    · exact inv.targetsNotAcc e (hsubE e he) h
    · exact hsndne e he (List.mem_singleton.1 h)
  · -- gone
    intro e he0 henot
    by_cases heE : e ∈ E
    · have hsnd : e.2 = pos := by
        by_contra hne
        exact henot (List.mem_filter.2 ⟨heE, by simpa using hne⟩)
      exact List.mem_append.2 (Or.inr (by simp [hsnd]))
    · exact List.mem_append.2 (Or.inl (inv.gone e he0 heE))
  · -- topo
    intro e he0 hmem
    unfold before
    rcases List.mem_append.1 hmem with h | h
    · exact List.Sublist.trans (inv.topo e he0 h) (List.sublist_append_left acc [pos])
    · have hpe : e.1 = pos := List.mem_singleton.1 h
      have heE : e ∉ E := fun hc =>
        List.filter_eq_nil_iff.1 hposNoOut e hc (by simp [hpe])
      have h2 : e.2 ∈ acc := inv.gone e he0 heE
      rw [hpe]
      exact List.Sublist.append (List.singleton_sublist.2 h2) (List.Sublist.refl [pos])

/-- The loop, started in an invariant state with adequate fuel, ends in
an invariant state with the ready list drained. -/
theorem walkLoop_inv (le : Nat → Nat → Bool) (E₀ : List (Nat × Nat)) (n : Nat) :
    ∀ (fuel : Nat) (E : List (Nat × Nat)) (ready acc : List Nat),
      E.length + ready.length ≤ fuel →
      WalkInv E₀ n E ready acc →
      WalkInv E₀ n (walkLoop le fuel E ready acc).2 []
        (walkLoop le fuel E ready acc).1
  | fuel, E, [], acc, _, inv => by
    cases fuel <;> simpa [walkLoop] using inv
  | 0, E, pos :: rest, acc, hfuel, inv => by
    exfalso
    simp only [List.length_cons] at hfuel
    omega
  | fuel + 1, E, pos :: rest, acc, hfuel, inv => by
    rw [walkLoop_cons]
    refine walkLoop_inv le E₀ n fuel _ _ _ ?_ (walkInv_step le inv)
    have := stepMeasure_le le E pos rest
    simp only [List.length_cons] at hfuel
    omega

/-- `walkGraphPos` in terms of `walkRun` (definitional). -/
theorem walkGraphPos_def [Inhabited Node] (cmp : Node → Node → Int)
    (rid : Node → String) (g : Graph Node) :
    walkGraphPos cmp rid g =
      (if (walkRun cmp g).2.isEmpty then .ok (walkRun cmp g).1
       else .error { edgesLeft := (walkRun cmp g).2,
                     resourceIDs := g.nodes.map rid }) := rfl

/-- The invariant holds at loop entry. -/
theorem walkInv_init [Inhabited Node] (cmp : Node → Node → Int)
    (g : Graph Node) (hwf : GraphWF g) :
    WalkInv g.edges g.nodes.length g.edges (walkInitReady cmp g) [] := by
  have hmem : ∀ p, p ∈ walkInitReady cmp g ↔
      (p < g.nodes.length ∧ g.edges.filter (fun e => e.1 == p) = []) := by
    intro p
    unfold walkInitReady
    rw [mem_insertionSortB, List.mem_filter, List.mem_range]
    exact and_congr_right (fun _ => by rw [List.isEmpty_iff])
  refine ⟨fun e he => he, hwf.1, hwf.2, ?_, ?_, by simp, ?_, ?_, by simp, by simp,
    ?_, by simp⟩
  · exact fun p hp => ((hmem p).1 hp).2
  · exact fun p hp => ((hmem p).1 hp).1
  · simp only [List.nil_append]
    unfold walkInitReady
    exact nodup_insertionSortB _ (List.Nodup.filter _ (List.nodup_range _))
  · intro p hp
    by_cases h : g.edges.filter (fun e => e.1 == p) = []
    · exact Or.inr (Or.inl ((hmem p).2 ⟨hp, h⟩))
    · exact Or.inr (Or.inr h)
  · intro e he hne
    exact absurd he hne

/-- A chain of steps yields a transitive-closure path. -/
theorem transGen_of_chain {step : Nat → Nat → Prop} (v : Nat → Nat)
    (h : ∀ k, step (v k) (v (k + 1))) (i : Nat) :
    ∀ j, i < j → Relation.TransGen step (v i) (v j) := by
  intro j hij
  induction j with
  | zero => omega
  | succ m ih =>
    rcases Nat.lt_succ_iff_lt_or_eq.1 hij with h' | h'
    · exact (ih h').tail (h m)
    · subst h'
      exact Relation.TransGen.single (h i)

/-- A nonempty edge list over `n` nodes in which every edge's target has
an outgoing edge contains a dependency cycle. -/
theorem exists_cycle_of_no_sink (E : List (Nat × Nat)) (n : Nat)
    (hwf : ∀ e ∈ E, e.1 < n ∧ e.2 < n)
    (hsucc : ∀ e ∈ E, ∃ e' , e' ∈ E ∧ e'.1 = e.2)
    (hne : E ≠ []) : ∃ v, Relation.TransGen (edgeStep E) v v := by
  obtain ⟨e₀, he₀⟩ := List.exists_mem_of_ne_nil E hne
  let f : Nat → {e : Nat × Nat // e ∈ E} := fun k =>
    Nat.rec ⟨e₀, he₀⟩ (fun _ prev =>
      ⟨Classical.choose (hsucc prev.1 prev.2),
       (Classical.choose_spec (hsucc prev.1 prev.2)).1⟩) k
  have hchain : ∀ k, (f (k + 1)).1.1 = (f k).1.2 := fun k =>
    (Classical.choose_spec (hsucc (f k).1 (f k).2)).2
  have hstep : ∀ k, edgeStep E (f k).1.1 (f (k + 1)).1.1 := by
    intro k
    unfold edgeStep
    rw [hchain k]
    have : ((f k).1.1, (f k).1.2) = (f k).1 := by
      exact Prod.ext rfl rfl
    rw [this]
    exact (f k).2
  have hlt : ∀ k, (f k).1.1 < n := fun k => (hwf (f k).1 (f k).2).1
  have hcard : Fintype.card (Fin n) < Fintype.card (Fin (n + 1)) := by simp
  obtain ⟨a, b, hab, heq⟩ := Fintype.exists_ne_map_eq_of_card_lt
    (fun i : Fin (n + 1) => (⟨(f i.1).1.1, hlt i.1⟩ : Fin n)) hcard
  have heq' : (f a.1).1.1 = (f b.1).1.1 := by
    simpa using congrArg Fin.val heq
  rcases Nat.lt_or_ge a.1 b.1 with hlt' | hge
  · refine ⟨(f a.1).1.1, ?_⟩
    have ht : Relation.TransGen (edgeStep E) (f a.1).1.1 (f b.1).1.1 :=
      transGen_of_chain (fun k => (f k).1.1) hstep a.1 b.1 hlt'
    rwa [← heq'] at ht
  · have hlt'' : b.1 < a.1 :=
      Nat.lt_of_le_of_ne hge (fun h => hab (Fin.ext h.symm))
    refine ⟨(f b.1).1.1, ?_⟩
    have ht : Relation.TransGen (edgeStep E) (f b.1).1.1 (f a.1).1.1 :=
      transGen_of_chain (fun k => (f k).1.1) hstep b.1 a.1 hlt''
    rwa [heq'] at ht

/-- The final state of the loop run inside `walkGraphPos` satisfies the
invariant with a drained ready list. -/
theorem walkRun_inv [Inhabited Node] (cmp : Node → Node → Int)
    (g : Graph Node) (hwf : GraphWF g) :
    WalkInv g.edges g.nodes.length (walkRun cmp g).2 [] (walkRun cmp g).1 := by
  unfold walkRun
  exact walkLoop_inv _ _ _ _ _ _ _ (le_refl _) (walkInv_init cmp g hwf)

/-- A successful walk outputs a permutation of all node positions in a
topologically consistent order: the target of every edge appears
strictly before its source. -/
theorem walkGraphPos_ok [Inhabited Node] {cmp : Node → Node → Int}
    {rid : Node → String} {g : Graph Node} (hwf : GraphWF g)
    {res : List Nat} (hok : walkGraphPos cmp rid g = .ok res) :
    List.Perm res (List.range g.nodes.length) ∧
    ∀ e ∈ g.edges, before res e.2 e.1 := by
  have inv := walkRun_inv cmp g hwf
  rw [walkGraphPos_def] at hok
  split at hok
  case isFalse => exact absurd hok (by simp)
  case isTrue hEmp =>
    have hres : (walkRun cmp g).1 = res := by
      injection hok
    have hEf : (walkRun cmp g).2 = [] := List.isEmpty_iff.1 hEmp
    have hmemres : ∀ p, p < g.nodes.length → p ∈ res := by
      intro p hp
      rcases inv.cover p hp with h | h | h
      · exact hres ▸ h
      · exact absurd h (List.not_mem_nil p)
      · rw [hEf] at h
        exact absurd rfl h
    constructor
    · rw [List.perm_ext_iff_of_nodup ?_ (List.nodup_range _)]
      · intro p
        rw [List.mem_range]
        exact ⟨fun h => inv.accLt p (hres ▸ h), hmemres p⟩
      · have := inv.nodupAll
        rw [List.append_nil] at this
        exact hres ▸ this
    · intro e he
      have h1 : e.1 ∈ (walkRun cmp g).1 :=
        hres ▸ hmemres e.1 (hwf.2 e he).1
      exact hres ▸ inv.topo e he h1

/-- On an acyclic graph the walk always succeeds. -/
theorem walkGraphPos_acyclic_ok [Inhabited Node] (cmp : Node → Node → Int)
    (rid : Node → String) (g : Graph Node) (hwf : GraphWF g)
    (hacyc : Acyclic g.edges) :
    walkGraphPos cmp rid g = .ok (walkRun cmp g).1 := by
  have inv := walkRun_inv cmp g hwf
  rw [walkGraphPos_def]
  have hEmp : (walkRun cmp g).2 = [] := by
    by_contra hne
    have hsucc : ∀ e ∈ (walkRun cmp g).2,
        ∃ e', e' ∈ (walkRun cmp g).2 ∧ e'.1 = e.2 := by
      intro e he
      have h2n : e.2 < g.nodes.length := (inv.wf0 e (inv.sub e he)).2
      rcases inv.cover e.2 h2n with h | h | h
      · exact absurd h (inv.targetsNotAcc e he)
      · exact absurd h (List.not_mem_nil _)
      · obtain ⟨e', he'⟩ := List.exists_mem_of_ne_nil _ h
        rcases List.mem_filter.1 he' with ⟨hmem, hfst⟩
        exact ⟨e', hmem, by simpa using hfst⟩
    obtain ⟨v, hv⟩ := exists_cycle_of_no_sink _ g.nodes.length
      (fun e he => inv.wf0 e (inv.sub e he)) hsucc hne
    exact hacyc v (Relation.TransGen.mono
      (fun a b hab => inv.sub (a, b) hab) hv)
  rw [hEmp]
  simp

/-- A failed walk reports exactly the surviving edges (all of them edges
of the graph) and the identity of every node. -/
theorem walkGraphPos_error [Inhabited Node] {cmp : Node → Node → Int}
    {rid : Node → String} {g : Graph Node} {err : cycleError}
    (hwf : GraphWF g) (herr : walkGraphPos cmp rid g = .error err) :
    err.edgesLeft ≠ [] ∧ (∀ e ∈ err.edgesLeft, e ∈ g.edges) ∧
    err.resourceIDs = g.nodes.map rid := by
  have inv := walkRun_inv cmp g hwf
  rw [walkGraphPos_def] at herr
  split at herr
  case isTrue => exact absurd herr (by simp)
  case isFalse hne =>
    have : ({ edgesLeft := (walkRun cmp g).2,
              resourceIDs := g.nodes.map rid } : cycleError) = err := by
      injection herr
    subst this
    refine ⟨fun h => hne (List.isEmpty_iff.2 h), fun e he => inv.sub e he, rfl⟩

/-- Membership in the initial ready list. -/
theorem mem_walkInitReady [Inhabited Node] (cmp : Node → Node → Int)
    (g : Graph Node) (p : Nat) :
    p ∈ walkInitReady cmp g ↔
      (p < g.nodes.length ∧ g.edges.filter (fun e => e.1 == p) = []) := by
  unfold walkInitReady
  rw [mem_insertionSortB, List.mem_filter, List.mem_range]
  exact and_congr_right (fun _ => by rw [List.isEmpty_iff])

/-- A mutually blocking pair of edges forces the walk to fail, and the
reported error carries both unresolved edges and the identity of every
node. -/
theorem walkGraphPos_cycle_error [Inhabited Node] (cmp : Node → Node → Int)
    (rid : Node → String) (g : Graph Node) (u v : Nat)
    (huv : (u, v) ∈ g.edges) (hvu : (v, u) ∈ g.edges) :
    ∃ err, walkGraphPos cmp rid g = .error err ∧
      (u, v) ∈ err.edgesLeft ∧ (v, u) ∈ err.edgesLeft ∧
      err.resourceIDs = g.nodes.map rid := by
  have hready : ∀ p ∈ walkInitReady cmp g,
      g.edges.filter (fun e => e.1 == p) = [] :=
    fun p hp => ((mem_walkInitReady cmp g p).1 hp).2
  have hpersist : (u, v) ∈ (walkRun cmp g).2 ∧ (v, u) ∈ (walkRun cmp g).2 :=
    walkLoop_cycle_persists (sortNodesByPos cmp g.nodes) u v
      (g.edges.length + (walkInitReady cmp g).length) g.edges
      (walkInitReady cmp g) [] hready huv hvu
  have hne : ¬ (walkRun cmp g).2.isEmpty = true := by
    intro h
    rw [List.isEmpty_iff.1 h] at hpersist
    exact List.not_mem_nil _ hpersist.1
  refine ⟨{ edgesLeft := (walkRun cmp g).2,
            resourceIDs := g.nodes.map rid }, ?_, hpersist.1, hpersist.2, rfl⟩
  rw [walkGraphPos_def, if_neg hne]

/-- With no edges at all, the walk returns the canonically sorted list of
all positions. -/
theorem walkGraphPos_no_edges [Inhabited Node] (cmp : Node → Node → Int)
    (rid : Node → String) (g : Graph Node) (h : g.edges = []) :
    walkGraphPos cmp rid g =
      .ok (insertionSortB (sortNodesByPos cmp g.nodes)
        (List.range g.nodes.length)) := by
  have hready : walkInitReady cmp g =
      insertionSortB (sortNodesByPos cmp g.nodes)
        (List.range g.nodes.length) := by
    unfold walkInitReady
    rw [h]
    congr 1
    exact List.filter_eq_self.2 (fun a _ => rfl)
  have hrun : walkRun cmp g =
      (insertionSortB (sortNodesByPos cmp g.nodes)
        (List.range g.nodes.length), []) := by
    unfold walkRun
    rw [h, hready]
    rw [walkLoop_nil_edges _ _ _ _ (by simp)]
    simp
  rw [walkGraphPos_def, hrun]
  rfl

/-- `walkGraph` is `walkGraphPos` with the positions read back through
the node slice (definitional). -/
theorem walkGraph_eq [Inhabited Node] (cmp : Node → Node → Int)
    (rid : Node → String) (g : Graph Node) :
    walkGraph cmp rid g = (walkGraphPos cmp rid g).map
      (fun ps => ps.map (fun p => g.nodes.getD p default)) := rfl

/-! ## Order lemmas for the canonical comparator -/

theorem ltCharList_trans : ∀ (a b c : List Char),
    ltCharList a b = true → ltCharList b c = true → ltCharList a c = true
  | _, b, [], _, h2 => by
    simp [ltCharList] at h2
  | a, [], _ :: _, h1, _ => by
    cases a <;> simp [ltCharList] at h1
  | [], _ :: _, _ :: _, _, _ => rfl
  | a :: as, b :: bs, c :: cs, h1, h2 => by
    by_cases hab : a.toNat < b.toNat
    · by_cases hbc : b.toNat < c.toNat
      · simp [ltCharList, show a.toNat < c.toNat by omega]
      · by_cases hcb : c.toNat < b.toNat
        · simp [ltCharList, hbc, hcb] at h2
        · simp [ltCharList, show a.toNat < c.toNat by omega]
    · by_cases hba : b.toNat < a.toNat
      · simp [ltCharList, hab, hba] at h1
      · have h1' : ltCharList as bs = true := by
          simpa [ltCharList, hab, hba] using h1
        by_cases hbc : b.toNat < c.toNat
        · simp [ltCharList, show a.toNat < c.toNat by omega]
        · by_cases hcb : c.toNat < b.toNat
          · simp [ltCharList, hbc, hcb] at h2
          · have h2' : ltCharList bs cs = true := by
              simpa [ltCharList, hbc, hcb] using h2
            simp [ltCharList, show ¬ a.toNat < c.toNat by omega,
              show ¬ c.toNat < a.toNat by omega,
              ltCharList_trans as bs cs h1' h2']

theorem ltCharList_asymm : ∀ (a b : List Char),
    ltCharList a b = true → ltCharList b a = true → False
  | _, [], h1, _ => by simp [ltCharList] at h1
  | [], _ :: _, _, h2 => by simp [ltCharList] at h2
  | a :: as, b :: bs, h1, h2 => by
    by_cases hab : a.toNat < b.toNat
    · simp [ltCharList, show ¬ b.toNat < a.toNat by omega, hab] at h2
    · by_cases hba : b.toNat < a.toNat
      · simp [ltCharList, hab, hba] at h1
      · exact ltCharList_asymm as bs
          (by simpa [ltCharList, hab, hba] using h1)
          (by simpa [ltCharList, hab, hba] using h2)

theorem ltCharList_eq_of_not : ∀ (a b : List Char),
    ltCharList a b = false → ltCharList b a = false → a = b
  | [], [], _, _ => rfl
  | [], _ :: _, h1, _ => by simp [ltCharList] at h1
  | _ :: _, [], _, h2 => by simp [ltCharList] at h2
  | a :: as, b :: bs, h1, h2 => by
    by_cases hab : a.toNat < b.toNat
    · simp [ltCharList, hab] at h1
    · by_cases hba : b.toNat < a.toNat
      · simp [ltCharList, hba] at h2
      · have heq : a = b := by
          have hval : a.toNat = b.toNat := by omega
          exact Char.ext (UInt32.ext (by exact hval))
        have h1' : ltCharList as bs = false := by
          simpa [ltCharList, hab, hba] using h1
        have h2' : ltCharList bs as = false := by
          simpa [ltCharList, hab, hba] using h2
        rw [heq, ltCharList_eq_of_not as bs h1' h2']

theorem stringLt_trans {a b c : String}
    (h1 : stringLt a b = true) (h2 : stringLt b c = true) :
    stringLt a c = true :=
  ltCharList_trans a.data b.data c.data h1 h2

theorem stringLt_asymm {a b : String}
    (h1 : stringLt a b = true) (h2 : stringLt b a = true) : False :=
  ltCharList_asymm a.data b.data h1 h2

theorem stringLt_eq_of_not {a b : String}
    (h1 : stringLt a b = false) (h2 : stringLt b a = false) : a = b := by
  cases a with
  | mk da =>
    cases b with
    | mk db =>
      have : da = db := ltCharList_eq_of_not da db h1 h2
      rw [this]

/-- The value of a key comparison is nonpositive iff the second key is
not smaller. -/
theorem cmpKeys_le_iff (k1 k2 : String) :
    ((if stringLt k1 k2 then (-1 : Int)
      else if stringLt k2 k1 then 1 else 0) ≤ 0) ↔ stringLt k2 k1 = false := by
  by_cases h1 : stringLt k1 k2 = true
  · by_cases h2 : stringLt k2 k1 = true
    · exact absurd (stringLt_asymm h1 h2) not_false
    · simp [h1, Bool.eq_false_iff.2 h2]
  · by_cases h2 : stringLt k2 k1 = true
    · simp [Bool.eq_false_iff.2 h1, h1, h2]
    · simp [Bool.eq_false_iff.2 h1, Bool.eq_false_iff.2 h2]

/-- The canonical CSS comparator is total (as a "less or equal"). -/
theorem sortNodesCSS_total (a b : cssResource) :
    sortNodesCSS a b ≤ 0 ∨ sortNodesCSS b a ≤ 0 := by
  cases a <;> cases b <;> simp only [sortNodesCSS]
  case inl.inl first _ second _ =>
    rw [cmpKeys_le_iff, cmpKeys_le_iff]
    rcases Bool.eq_false_or_eq_true (stringLt second.getKey first.getKey) with h | h
    · exact Or.inr (Bool.eq_false_iff.2 (fun h2 => stringLt_asymm h h2))
    · exact Or.inl h
  case inl.lnk => exact Or.inr (by norm_num)
  case lnk.inl => exact Or.inl (by norm_num)
  case lnk.lnk first _ second _ =>
    rw [cmpKeys_le_iff, cmpKeys_le_iff]
    rcases Bool.eq_false_or_eq_true (stringLt second.Href first.Href) with h | h
    · exact Or.inr (Bool.eq_false_iff.2 (fun h2 => stringLt_asymm h h2))
    · exact Or.inl h

/-- Nonpositive key comparisons compose. -/
theorem stringLt_not_trans {k1 k2 k3 : String}
    (h1 : stringLt k2 k1 = false) (h2 : stringLt k3 k2 = false) :
    stringLt k3 k1 = false := by
  cases hb : stringLt k3 k1 with
  | false => rfl
  | true =>
    exfalso
    cases hc : stringLt k2 k3 with
    | true => exact Bool.eq_false_iff.1 h1 (stringLt_trans hc hb)
    | false =>
      have heq : k2 = k3 := stringLt_eq_of_not hc h2
      rw [← heq] at hb
      exact Bool.eq_false_iff.1 h1 hb

/-- The canonical CSS comparator is transitive (as a "less or equal"). -/
theorem sortNodesCSS_trans (a b c : cssResource)
    (h1 : sortNodesCSS a b ≤ 0) (h2 : sortNodesCSS b c ≤ 0) :
    sortNodesCSS a c ≤ 0 := by
  cases a <;> cases b <;> cases c <;>
    simp only [sortNodesCSS] at h1 h2 ⊢ <;>
    try norm_num at h1 h2 ⊢
  case inl.inl.inl =>
    rw [cmpKeys_le_iff] at h1 h2 ⊢
    exact stringLt_not_trans h1 h2
  case lnk.lnk.lnk =>
    rw [cmpKeys_le_iff] at h1 h2 ⊢
    exact stringLt_not_trans h1 h2

/-! ## Lemmas about the explicit-edge phase -/

theorem mem_insertEdge {E : List (Nat × Nat)} {e f : Nat × Nat} :
    f ∈ insertEdge E e ↔ f ∈ E ∨ f = e := by
  unfold insertEdge
  split
  · next h =>
    exact ⟨Or.inl, fun hf => hf.elim id (fun hfe => hfe ▸ h)⟩
  · rw [List.mem_append, List.mem_singleton]

theorem nodup_insertEdge {E : List (Nat × Nat)} {e : Nat × Nat}
    (h : E.Nodup) : (insertEdge E e).Nodup := by
  unfold insertEdge
  split
  · exact h
  · next hne =>
    rw [List.nodup_append]
    exact ⟨h, List.nodup_singleton e, fun a ha hae =>
      hne ((List.mem_singleton.1 hae) ▸ ha)⟩

theorem mem_applyVerdict {E : List (Nat × Nat)} {pos compPos : Nat}
    {rel : ResourceRelationship} {f : Nat × Nat} :
    f ∈ applyVerdict E pos compPos rel ↔
      f ∈ E ∨ (rel = .after ∧ f = (pos, compPos)) ∨
        (rel = .before ∧ f = (compPos, pos)) := by
  cases rel <;> simp [applyVerdict, mem_insertEdge]

theorem nodup_applyVerdict {E : List (Nat × Nat)} {pos compPos : Nat}
    {rel : ResourceRelationship} (h : E.Nodup) :
    (applyVerdict E pos compPos rel).Nodup := by
  cases rel <;> first
    | exact nodup_insertEdge h
    | exact h

/-- Generic membership through an edge-accumulating fold. -/
theorem mem_foldl_acc {α : Type u} (φ : List (Nat × Nat) → α → List (Nat × Nat))
    (ψ : α → (Nat × Nat) → Prop)
    (hstep : ∀ E a f, f ∈ φ E a ↔ f ∈ E ∨ ψ a f) :
    ∀ (l : List α) (E : List (Nat × Nat)) (f : Nat × Nat),
      f ∈ l.foldl φ E ↔ f ∈ E ∨ ∃ a ∈ l, ψ a f
  | [], E, f => by simp
  | a :: l, E, f => by
    rw [List.foldl_cons, mem_foldl_acc φ ψ hstep l _ f]
    rw [hstep E a f]
    constructor
    · rintro ((h | h) | ⟨b, hb, h⟩)
      · exact Or.inl h
      · exact Or.inr ⟨a, List.mem_cons_self a l, h⟩
      · exact Or.inr ⟨b, List.mem_cons_of_mem a hb, h⟩
    · rintro (h | ⟨b, hb, h⟩)
      · exact Or.inl (Or.inl h)
      · rcases List.mem_cons.1 hb with rfl | hb
        · exact Or.inl (Or.inr h)
        · exact Or.inr ⟨b, hb, h⟩

/-- Generic duplicate-freedom through an edge-accumulating fold. -/
theorem nodup_foldl_acc {α : Type u}
    (φ : List (Nat × Nat) → α → List (Nat × Nat))
    (hstep : ∀ E a, E.Nodup → (φ E a).Nodup) :
    ∀ (l : List α) (E : List (Nat × Nat)), E.Nodup → (l.foldl φ E).Nodup
  | [], _, h => h
  | a :: l, E, h => nodup_foldl_acc φ hstep l (φ E a) (hstep E a h)

/-- The candidate loop of the CSS explicit phase adds exactly the edges
derived from the verdicts of this node's calculators. -/
theorem mem_cssExplicitForNode {nodes : List cssResource}
    {E : List (Nat × Nat)} {pos : Nat} {resource : cssResource}
    {f : Nat × Nat} :
    f ∈ cssExplicitForNode nodes E pos resource ↔
      f ∈ E ∨ ∃ compPos cand, nodes[compPos]? = some cand ∧
        ((cssVerdict resource cand = some .after ∧ f = (pos, compPos)) ∨
         (cssVerdict resource cand = some .before ∧ f = (compPos, pos))) := by
  have hstep : ∀ (E' : List (Nat × Nat)) (pc : Nat × cssResource)
      (f' : Nat × Nat),
      f' ∈ (match pc.2 with
        | .inl comp _ =>
          match resource.inlineCalc with
          | none => E'
          | some fc => applyVerdict E' pos pc.1 (fc comp)
        | .lnk comp _ =>
          match resource.linkCalc with
          | none => E'
          | some fc => applyVerdict E' pos pc.1 (fc comp)) ↔
      f' ∈ E' ∨
        ((cssVerdict resource pc.2 = some .after ∧ f' = (pos, pc.1)) ∨
         (cssVerdict resource pc.2 = some .before ∧ f' = (pc.1, pos))) := by
    rintro E' ⟨compPos, cand⟩ f'
    cases cand with
    | inl comp k =>
      cases hres : resource.inlineCalc with
      | none => simp [cssVerdict, hres]
      | some fc => simp [cssVerdict, hres, mem_applyVerdict]
    | lnk comp k =>
      cases hres : resource.linkCalc with
      | none => simp [cssVerdict, hres]
      | some fc => simp [cssVerdict, hres, mem_applyVerdict]
  unfold cssExplicitForNode
  split
  · next hnone =>
    simp only [Bool.and_eq_true, Option.isNone_iff_eq_none] at hnone
    constructor
    · exact Or.inl
    · rintro (h | ⟨compPos, cand, hget, hcase⟩)
      · exact h
      · exfalso
        have hv0 : cssVerdict resource cand = none := by
          cases cand <;> simp [cssVerdict, hnone.1, hnone.2]
        rcases hcase with ⟨hv, _⟩ | ⟨hv, _⟩ <;> rw [hv0] at hv <;>
          exact Option.noConfusion hv
  · rw [mem_foldl_acc _ (fun pc f' =>
      (cssVerdict resource pc.2 = some .after ∧ f' = (pos, pc.1)) ∨
      (cssVerdict resource pc.2 = some .before ∧ f' = (pc.1, pos))) hstep]
    refine or_congr_right ?_
    constructor
    · rintro ⟨⟨compPos, cand⟩, hmem, hcase⟩
      exact ⟨compPos, cand, List.mk_mem_enum_iff_getElem?.1 hmem, hcase⟩
    · rintro ⟨compPos, cand, hget, hcase⟩
      exact ⟨(compPos, cand), List.mk_mem_enum_iff_getElem?.2 hget, hcase⟩

/-- The CSS explicit phase adds exactly the verdict-derived edges. -/
theorem mem_cssExplicitEdges {nodes : List cssResource}
    {E : List (Nat × Nat)} {f : Nat × Nat} :
    f ∈ cssExplicitEdges nodes E ↔ f ∈ E ∨ explicitDerived nodes f := by
  unfold cssExplicitEdges
  rw [mem_foldl_acc _ (fun pr f' =>
      ∃ compPos cand, nodes[compPos]? = some cand ∧
        ((cssVerdict pr.2 cand = some .after ∧ f' = (pr.1, compPos)) ∨
         (cssVerdict pr.2 cand = some .before ∧ f' = (compPos, pr.1))))
      (fun _ _ _ => mem_cssExplicitForNode)]
  refine or_congr_right ?_
  constructor
  · rintro ⟨⟨p, rp⟩, hmem, compPos, cand, hget, hcase⟩
    have hp : nodes[p]? = some rp := List.mk_mem_enum_iff_getElem?.1 hmem
    rcases hcase with ⟨hv, rfl⟩ | ⟨hv, rfl⟩
    · exact Or.inl ⟨rp, cand, hp, hget, hv⟩
    · exact Or.inr ⟨rp, cand, hp, hget, hv⟩
  · rintro (⟨rp, rq, h1, h2, hv⟩ | ⟨rp, rq, h1, h2, hv⟩)
    · exact ⟨(f.1, rp), List.mk_mem_enum_iff_getElem?.2 h1, f.2, rq, h2,
        Or.inl ⟨hv, rfl⟩⟩
    · exact ⟨(f.2, rp), List.mk_mem_enum_iff_getElem?.2 h1, f.1, rq, h2,
        Or.inr ⟨hv, rfl⟩⟩

/-- The CSS explicit phase never introduces duplicate edges. -/
theorem nodup_cssExplicitEdges {nodes : List cssResource}
    {E : List (Nat × Nat)} (h : E.Nodup) :
    (cssExplicitEdges nodes E).Nodup := by
  unfold cssExplicitEdges
  refine nodup_foldl_acc _ ?_ _ _ h
  intro E' pr hE'
  unfold cssExplicitForNode
  split
  · exact hE'
  · refine nodup_foldl_acc _ ?_ _ _ hE'
    intro E'' pc hE''
    rcases pc with ⟨compPos, cand⟩
    cases cand with
    | inl comp k =>
      cases hc : pr.2.inlineCalc with
      | none => simpa [hc] using hE''
      | some fc => simpa [hc] using @nodup_applyVerdict E'' pr.1 compPos (fc comp) hE''
    | lnk comp k =>
      cases hc : pr.2.linkCalc with
      | none => simpa [hc] using hE''
      | some fc => simpa [hc] using @nodup_applyVerdict E'' pr.1 compPos (fc comp) hE''

/-- The CSS explicit phase keeps all edge endpoints inside the node
slice. -/
theorem cssExplicitEdges_wf {nodes : List cssResource}
    {E : List (Nat × Nat)}
    (h : ∀ e ∈ E, e.1 < nodes.length ∧ e.2 < nodes.length) :
    ∀ f ∈ cssExplicitEdges nodes E,
      f.1 < nodes.length ∧ f.2 < nodes.length := by
  intro f hf
  rcases mem_cssExplicitEdges.1 hf with h' | h'
  · exact h f h'
  · rcases h' with ⟨rp, rq, h1, h2, _⟩ | ⟨rp, rq, h1, h2, _⟩
    · exact ⟨(List.getElem?_eq_some.1 h1).1, (List.getElem?_eq_some.1 h2).1⟩
    · exact ⟨(List.getElem?_eq_some.1 h2).1, (List.getElem?_eq_some.1 h1).1⟩

/-! ## Lemmas about the collection phase -/

theorem insertEdge_eq_append {E : List (Nat × Nat)} {e : Nat × Nat}
    (h : e ∉ E) : insertEdge E e = E ++ [e] := by
  unfold insertEdge
  rw [if_neg h]

theorem chainEdges_map_fst_some : ∀ (lv : Nat) (l : List Nat),
    (chainEdges (some lv) l).map Prod.fst = l
  | _, [] => rfl
  | lv, t :: rest => by
    simp only [chainEdges, List.map_cons]
    rw [chainEdges_map_fst_some t rest]

theorem chainEdges_map_fst_none : ∀ (l : List Nat),
    (chainEdges none l).map Prod.fst = l.tail
  | [] => rfl
  | t :: rest => chainEdges_map_fst_some t rest

theorem chainEdges_endpoints : ∀ (lastOpt : Option Nat) (l : List Nat)
    (e : Nat × Nat), e ∈ chainEdges lastOpt l →
      e.1 ∈ l ∧ (e.2 ∈ l ∨ lastOpt = some e.2)
  | none, [], e, he => absurd he (List.not_mem_nil e)
  | some _, [], e, he => absurd he (List.not_mem_nil e)
  | none, t :: rest, e, he => by
    rcases chainEdges_endpoints (some t) rest e he with ⟨h1, h2⟩
    refine ⟨List.mem_cons_of_mem t h1, Or.inl ?_⟩
    rcases h2 with h2 | h2
    · exact List.mem_cons_of_mem t h2
    · rw [show e.2 = t from (Option.some_inj.1 h2).symm]
      exact List.mem_cons_self t rest
  | some lv, t :: rest, e, he => by
    rcases List.mem_cons.1 he with rfl | he
    · exact ⟨List.mem_cons_self t rest, Or.inr rfl⟩
    · rcases chainEdges_endpoints (some t) rest e he with ⟨h1, h2⟩
      refine ⟨List.mem_cons_of_mem t h1, Or.inl ?_⟩
      rcases h2 with h2 | h2
      · exact List.mem_cons_of_mem t h2
      · rw [show e.2 = t from (Option.some_inj.1 h2).symm]
        exact List.mem_cons_self t rest

theorem chainEdges_snd_lt_fst : ∀ (lastOpt : Option Nat) (l : List Nat),
    (∀ lv, lastOpt = some lv → ∀ i ∈ l, lv < i) →
    List.Pairwise (· < ·) l →
    ∀ e ∈ chainEdges lastOpt l, e.2 < e.1
  | none, [], _, _, e, he => absurd he (List.not_mem_nil e)
  | some _, [], _, _, e, he => absurd he (List.not_mem_nil e)
  | none, t :: rest, _, hp, e, he => by
    rcases List.pairwise_cons.1 hp with ⟨ht, hrest⟩
    exact chainEdges_snd_lt_fst (some t) rest
      (fun lv hlv i hi => (Option.some_inj.1 hlv) ▸ ht i hi) hrest e he
  | some lv, t :: rest, hanchor, hp, e, he => by
    rcases List.pairwise_cons.1 hp with ⟨ht, hrest⟩
    rcases List.mem_cons.1 he with rfl | he
    · exact hanchor lv rfl t (List.mem_cons_self t rest)
    · exact chainEdges_snd_lt_fst (some t) rest
        (fun lv' hlv' i hi => (Option.some_inj.1 hlv') ▸ ht i hi) hrest e he

theorem chainEdges_nodup (lastOpt : Option Nat) (l : List Nat)
    (hp : List.Pairwise (· < ·) l) : (chainEdges lastOpt l).Nodup := by
  have hnodup : l.Nodup := hp.imp (fun h => Nat.ne_of_lt h)
  cases lastOpt with
  | none =>
    refine List.Nodup.of_map Prod.fst ?_
    rw [chainEdges_map_fst_none]
    exact hnodup.tail
  | some lv =>
    refine List.Nodup.of_map Prod.fst ?_
    rw [chainEdges_map_fst_some]
    exact hnodup

theorem collectNewEligibles_ge (eq : R → R → Bool) (skip : R → Bool) :
    ∀ (rs nodes : List R), ∀ i ∈ collectNewEligibles eq skip nodes rs,
      nodes.length ≤ i
  | [], _, i, hi => absurd hi (List.not_mem_nil i)
  | r :: rest, nodes, i, hi => by
    simp only [collectNewEligibles] at hi
    split at hi
    · exact collectNewEligibles_ge eq skip rest nodes i hi
    · split at hi
      · have := collectNewEligibles_ge eq skip rest (nodes ++ [r]) i hi
        simp only [List.length_append, List.length_singleton] at this
        omega
      · rcases List.mem_cons.1 hi with rfl | hi
        · exact le_refl _
        · have := collectNewEligibles_ge eq skip rest (nodes ++ [r]) i hi
          simp only [List.length_append, List.length_singleton] at this
          omega

theorem collectNewEligibles_sorted (eq : R → R → Bool) (skip : R → Bool) :
    ∀ (rs nodes : List R),
      List.Pairwise (· < ·) (collectNewEligibles eq skip nodes rs)
  | [], _ => List.Pairwise.nil
  | r :: rest, nodes => by
    simp only [collectNewEligibles]
    split
    · exact collectNewEligibles_sorted eq skip rest nodes
    · split
      · exact collectNewEligibles_sorted eq skip rest (nodes ++ [r])
      · refine List.pairwise_cons.2
          ⟨?_, collectNewEligibles_sorted eq skip rest (nodes ++ [r])⟩
        intro i hi
        have := collectNewEligibles_ge eq skip rest (nodes ++ [r]) i hi
        simp only [List.length_append, List.length_singleton] at this
        omega

/-- The full characterisation of one collection invocation: nodes are
appended, the edges grow by exactly the implicit chain over the newly
added eligible resources, and the final anchor is a valid node index. -/
theorem collect_spec (eq : R → R → Bool) (skip : R → Bool) :
    ∀ (rs : List R) (g : Graph R) (lastL : Option Nat),
      (∀ e ∈ g.edges, e.1 < g.nodes.length ∧ e.2 < g.nodes.length) →
      (∀ lv, lastL = some lv → lv < g.nodes.length) →
      (∃ added, (rs.foldl (collectStep eq skip) (g, lastL)).1.nodes =
          g.nodes ++ added) ∧
      (rs.foldl (collectStep eq skip) (g, lastL)).1.edges =
        g.edges ++ chainEdges lastL (collectNewEligibles eq skip g.nodes rs) ∧
      (∀ lv, (rs.foldl (collectStep eq skip) (g, lastL)).2 = some lv →
        lv < (rs.foldl (collectStep eq skip) (g, lastL)).1.nodes.length)
  | [], g, lastL, _, hlast => by
    refine ⟨⟨[], (List.append_nil _).symm⟩, ?_, fun lv h => hlast lv h⟩
    simp [collectNewEligibles, chainEdges]
  | r :: rest, g, lastL, hwf, hlast => by
    rw [List.foldl_cons]
    by_cases hdup : g.nodes.any (fun existing => eq r existing) = true
    · have hstep : collectStep eq skip (g, lastL) r = (g, lastL) := by
        unfold collectStep
        rw [if_pos hdup]
      rw [hstep]
      simp only [collectNewEligibles, hdup, if_true]
      exact collect_spec eq skip rest g lastL hwf hlast
    · by_cases hskip : skip r = true
      · have hstep : collectStep eq skip (g, lastL) r =
            (⟨g.nodes ++ [r], g.edges⟩, lastL) := by
          unfold collectStep
          rw [if_neg hdup, if_pos hskip]
        rw [hstep]
        simp only [collectNewEligibles, hdup, if_false, hskip, if_true]
        have hwf' : ∀ e ∈ g.edges,
            e.1 < (g.nodes ++ [r]).length ∧ e.2 < (g.nodes ++ [r]).length := by
          intro e he
          have := hwf e he
          simp only [List.length_append, List.length_singleton]
          omega
        have hlast' : ∀ lv, lastL = some lv → lv < (g.nodes ++ [r]).length := by
          intro lv hlv
          have := hlast lv hlv
          simp only [List.length_append, List.length_singleton]
          omega
        rcases collect_spec eq skip rest ⟨g.nodes ++ [r], g.edges⟩ lastL
          hwf' hlast' with ⟨⟨added, hnodes⟩, hedges, hanchor⟩
        refine ⟨⟨[r] ++ added, by rw [hnodes, List.append_assoc]⟩, hedges, hanchor⟩
      · have hthis : (g.nodes ++ [r]).length - 1 = g.nodes.length := by
          simp
        cases lastL with
        | none =>
          have hstep : collectStep eq skip (g, none) r =
              (⟨g.nodes ++ [r], g.edges⟩, some g.nodes.length) := by
            unfold collectStep
            rw [if_neg hdup, if_neg hskip]
            simp
          rw [hstep]
          simp only [collectNewEligibles, hdup, if_false, hskip, chainEdges]
          have hwf' : ∀ e ∈ g.edges,
              e.1 < (g.nodes ++ [r]).length ∧ e.2 < (g.nodes ++ [r]).length := by
            intro e he
            have := hwf e he
            simp only [List.length_append, List.length_singleton]
            omega
          have hlast' : ∀ lv, (some g.nodes.length : Option Nat) = some lv →
              lv < (g.nodes ++ [r]).length := by
            intro lv hlv
            rw [← Option.some_inj.1 hlv]
            simp
          rcases collect_spec eq skip rest ⟨g.nodes ++ [r], g.edges⟩
            (some g.nodes.length) hwf' hlast' with ⟨⟨added, hnodes⟩, hedges, hanchor⟩
          exact ⟨⟨[r] ++ added, by rw [hnodes, List.append_assoc]⟩, hedges, hanchor⟩
        | some lv =>
          have hnotmem : (g.nodes.length, lv) ∉ g.edges := by
            intro hmem
            exact absurd (hwf _ hmem).1 (lt_irrefl _)
          have hstep : collectStep eq skip (g, some lv) r =
              (⟨g.nodes ++ [r], g.edges ++ [(g.nodes.length, lv)]⟩,
               some g.nodes.length) := by
            unfold collectStep
            rw [if_neg hdup, if_neg hskip]
            simp only
            rw [hthis, insertEdge_eq_append hnotmem]
          rw [hstep]
          simp only [collectNewEligibles, hdup, if_false, hskip, chainEdges]
          have hwf' : ∀ e ∈ g.edges ++ [(g.nodes.length, lv)],
              e.1 < (g.nodes ++ [r]).length ∧ e.2 < (g.nodes ++ [r]).length := by
            intro e he
            simp only [List.length_append, List.length_singleton]
            rcases List.mem_append.1 he with h | h
            · have := hwf e h
              omega
            · rw [List.mem_singleton.1 h]
              have := hlast lv rfl
              simp only
              omega
          have hlast' : ∀ lv', (some g.nodes.length : Option Nat) = some lv' →
              lv' < (g.nodes ++ [r]).length := by
            intro lv' hlv'
            rw [← Option.some_inj.1 hlv']
            simp
          rcases collect_spec eq skip rest
            ⟨g.nodes ++ [r], g.edges ++ [(g.nodes.length, lv)]⟩
            (some g.nodes.length) hwf' hlast' with ⟨⟨added, hnodes⟩, hedges, hanchor⟩
          refine ⟨⟨[r] ++ added, by rw [hnodes, List.append_assoc]⟩, ?_, hanchor⟩
          rw [hedges, List.append_assoc]
          rfl

theorem collectStep_nodes_eq (eq : R → R → Bool) (skip : R → Bool)
    (g : Graph R) (last : Option Nat) (r : R) :
    (collectStep eq skip (g, last) r).1.nodes = g.nodes ∨
    (collectStep eq skip (g, last) r).1.nodes = g.nodes ++ [r] := by
  unfold collectStep
  by_cases hdup : (g.nodes.any fun existing => eq r existing) = true
  · rw [if_pos hdup]
    exact Or.inl rfl
  · rw [if_neg hdup]
    by_cases hskip : skip r = true
    · rw [if_pos hskip]
      exact Or.inr rfl
    · rw [if_neg hskip]
      cases last with
      | none => exact Or.inr rfl
      | some lv => exact Or.inr rfl

theorem collectStep_nodes_le (eq : R → R → Bool) (skip : R → Bool)
    (st : Graph R × Option Nat) (r : R) :
    st.1.nodes.length ≤ (collectStep eq skip st r).1.nodes.length := by
  obtain ⟨g, last⟩ := st
  rcases collectStep_nodes_eq eq skip g last r with h | h <;> simp [h]

theorem collect_nodes_le (eq : R → R → Bool) (skip : R → Bool) :
    ∀ (rs : List R) (st : Graph R × Option Nat),
      st.1.nodes.length ≤ (rs.foldl (collectStep eq skip) st).1.nodes.length
  | [], _ => le_refl _
  | r :: rest, st =>
    le_trans (collectStep_nodes_le eq skip st r)
      (collect_nodes_le eq skip rest _)

theorem collectNewEligibles_lt (eq : R → R → Bool) (skip : R → Bool) :
    ∀ (rs : List R) (g : Graph R) (lastL : Option Nat),
      ∀ i ∈ collectNewEligibles eq skip g.nodes rs,
        i < (rs.foldl (collectStep eq skip) (g, lastL)).1.nodes.length
  | [], _, _, i, hi => absurd hi (List.not_mem_nil i)
  | r :: rest, g, lastL, i, hi => by
    rw [List.foldl_cons]
    simp only [collectNewEligibles] at hi
    by_cases hdup : (g.nodes.any fun existing => eq r existing) = true
    · rw [if_pos hdup] at hi
      have hstep : collectStep eq skip (g, lastL) r = (g, lastL) := by
        unfold collectStep
        rw [if_pos hdup]
      rw [hstep]
      exact collectNewEligibles_lt eq skip rest g lastL i hi
    · rw [if_neg hdup] at hi
      by_cases hskip : skip r = true
      · rw [if_pos hskip] at hi
        have hstep : collectStep eq skip (g, lastL) r =
            (⟨g.nodes ++ [r], g.edges⟩, lastL) := by
          unfold collectStep
          rw [if_neg hdup, if_pos hskip]
        rw [hstep]
        exact collectNewEligibles_lt eq skip rest ⟨g.nodes ++ [r], g.edges⟩
          lastL i hi
      · rw [if_neg hskip] at hi
        have hthis : (g.nodes ++ [r]).length - 1 = g.nodes.length := by simp
        have hhead : ∀ (g2 : Graph R) (l2 : Option Nat),
            g2.nodes = g.nodes ++ [r] →
            g.nodes.length <
              (rest.foldl (collectStep eq skip) (g2, l2)).1.nodes.length := by
          intro g2 l2 hg2
          have h1 := collect_nodes_le eq skip rest (g2, l2)
          rw [hg2] at h1
          simp only [List.length_append, List.length_singleton] at h1
          omega
        cases lastL with
        | none =>
          have hstep : collectStep eq skip (g, none) r =
              (⟨g.nodes ++ [r], g.edges⟩, some g.nodes.length) := by
            unfold collectStep
            rw [if_neg hdup, if_neg hskip]
            simp only
            rw [hthis]
          rw [hstep]
          rcases List.mem_cons.1 hi with rfl | hi
          · exact hhead _ _ rfl
          · exact collectNewEligibles_lt eq skip rest ⟨g.nodes ++ [r], g.edges⟩
              (some g.nodes.length) i hi
        | some lv =>
          have hstep : collectStep eq skip (g, some lv) r =
              (⟨g.nodes ++ [r], insertEdge g.edges (g.nodes.length, lv)⟩,
               some g.nodes.length) := by
            unfold collectStep
            rw [if_neg hdup, if_neg hskip]
            simp only
            rw [hthis]
          rw [hstep]
          rcases List.mem_cons.1 hi with rfl | hi
          · exact hhead _ _ rfl
          · exact collectNewEligibles_lt eq skip rest
              ⟨g.nodes ++ [r], insertEdge g.edges (g.nodes.length, lv)⟩
              (some g.nodes.length) i hi

/-- Routing the JavaScript collection loop: the two buckets evolve
independently, each seeing exactly its own resources. -/
theorem collectJS_split :
    ∀ (rs : List jsResource)
      (stH stF : Graph jsResource × Option Nat),
      rs.foldl collectJSStep (stH, stF) =
        ((rs.filter (fun r => !r.PlaceInFooter)).foldl
          (collectStep jsResource.equal jsSkip) stH,
         (rs.filter (fun r => r.PlaceInFooter)).foldl
          (collectStep jsResource.equal jsSkip) stF)
  | [], _, _ => rfl
  | r :: rest, stH, stF => by
    rw [List.foldl_cons]
    by_cases hft : r.PlaceInFooter = true
    · have hstep : collectJSStep (stH, stF) r =
          (stH, collectStep jsResource.equal jsSkip stF r) := by
        unfold collectJSStep
        rw [if_pos hft]
      rw [hstep, collectJS_split rest]
      simp [List.filter_cons, hft]
    · have hstep : collectJSStep (stH, stF) r =
          (collectStep jsResource.equal jsSkip stH r, stF) := by
        unfold collectJSStep
        rw [if_neg hft]
      rw [hstep, collectJS_split rest]
      simp [List.filter_cons, hft, Bool.eq_false_iff.2 hft]

/-! ## Lemmas for deduplication (collection phase) -/

theorem collectStep_nodes_of_not_dup (eq : R → R → Bool) (skip : R → Bool)
    (g : Graph R) (lastL : Option Nat) (r : R)
    (hdup : ¬ ((g.nodes.any fun existing => eq r existing) = true)) :
    (collectStep eq skip (g, lastL) r).1.nodes = g.nodes ++ [r] := by
  unfold collectStep
  rw [if_neg hdup]
  by_cases hskip : skip r = true
  · rw [if_pos hskip]
  · rw [if_neg hskip]
    cases lastL with
    | none => rfl
    | some lv => rfl

/-- A resource is discarded (the whole collection state is unchanged)
exactly when a structurally equal node already exists;  in that case the
node that remains is the first occurrence, with its calculators. -/
theorem collectStep_discarded_iff (eq : R → R → Bool) (skip : R → Bool)
    (g : Graph R) (lastL : Option Nat) (r : R) :
    collectStep eq skip (g, lastL) r = (g, lastL) ↔
      (g.nodes.any fun existing => eq r existing) = true := by
  constructor
  · intro h
    by_contra hdup
    have hnodes := collectStep_nodes_of_not_dup eq skip g lastL r hdup
    rw [h] at hnodes
    have := congrArg List.length hnodes
    simp at this
  · intro h
    unfold collectStep
    rw [if_pos h]

/-- The collection phase keeps the node list free of structural
duplicates: no node is structurally equal to an earlier one. -/
theorem collect_pairwise_distinct (eq : R → R → Bool) (skip : R → Bool) :
    ∀ (rs : List R) (g : Graph R) (lastL : Option Nat),
      List.Pairwise (fun a b => eq b a = false) g.nodes →
      List.Pairwise (fun a b => eq b a = false)
        (rs.foldl (collectStep eq skip) (g, lastL)).1.nodes
  | [], _, _, h => h
  | r :: rest, g, lastL, h => by
    rw [List.foldl_cons]
    by_cases hdup : (g.nodes.any fun existing => eq r existing) = true
    · rw [collectStep_discarded_iff eq skip g lastL r |>.2 hdup]
      exact collect_pairwise_distinct eq skip rest g lastL h
    · have hnew : ∀ x ∈ g.nodes, eq r x = false := by
        intro x hx
        rcases Bool.eq_false_or_eq_true (eq r x) with ht | hf
        · exact absurd (List.any_eq_true.2 ⟨x, hx, ht⟩) hdup
        · exact hf
      have hpair : List.Pairwise (fun a b => eq b a = false) (g.nodes ++ [r]) := by
        rw [List.pairwise_append]
        exact ⟨h, List.pairwise_singleton _ r,
          fun a ha b hb => (List.mem_singleton.1 hb) ▸ hnew a ha⟩
      have hst : (collectStep eq skip (g, lastL) r).1.nodes = g.nodes ++ [r] :=
        collectStep_nodes_of_not_dup eq skip g lastL r hdup
      have hsnd : ∃ lastL', collectStep eq skip (g, lastL) r =
          (⟨g.nodes ++ [r], (collectStep eq skip (g, lastL) r).1.edges⟩, lastL') := by
        refine ⟨(collectStep eq skip (g, lastL) r).2, ?_⟩
        rw [← hst]
      rcases hsnd with ⟨lastL', heq⟩
      rw [heq]
      exact collect_pairwise_distinct eq skip rest _ _ hpair

/-- Structural equality of CSS resources ignores the relation
calculators on both sides. -/
theorem cssResource_equal_withCalcs (r s : cssResource) (c c' : CSSCalcs) :
    cssResource.equal (r.withCalcs c) (s.withCalcs c') = cssResource.equal r s := by
  cases r <;> cases s <;> rfl

/-- Structural equality of JavaScript resources ignores the relation
calculators on both sides. -/
theorem jsResource_equal_withCalcs (r s : jsResource) (c c' : JSCalcs) :
    jsResource.equal (r.withCalcs c) (s.withCalcs c') = jsResource.equal r s := by
  cases r <;> cases s <;> rfl

/-! ## Lemmas for the JavaScript explicit phase (nil calculators) -/

theorem foldlM_option_none {α : Type u} {β : Type v}
    (φ : β → α → Option β) (ψ : α → Prop)
    (hstep : ∀ b a, ψ a → φ b a = none) :
    ∀ (l : List α) (b : β), (∃ a ∈ l, ψ a) → l.foldlM φ b = none
  | [], _, h => by
    rcases h with ⟨a, ha, _⟩
    exact absurd ha (List.not_mem_nil a)
  | a :: l, b, h => by
    rw [List.foldlM_cons]
    by_cases hψ : ψ a
    · rw [hstep b a hψ]
      rfl
    · cases hφ : φ b a with
      | none => rfl
      | some b' =>
        show (some b' >>= fun b'' => List.foldlM φ b'' l) = none
        rcases h with ⟨a', ha', hψ'⟩
        rcases List.mem_cons.1 ha' with rfl | ha'
        · exact absurd hψ' hψ
        · show List.foldlM φ b' l = none
          exact foldlM_option_none φ ψ hstep l b' ⟨a', ha', hψ'⟩

/-- When a JavaScript node has at least one calculator but a candidate's
matching calculator is nil, the candidate loop dereferences a nil
function (models the Go panic). -/
theorem jsExplicitForNode_none {E : List (Nat × Nat)} {pos : Nat}
    {resource : jsResource} {nodes : List jsResource}
    (hsome : resource.linkCalc.isSome = true ∨ resource.inlineCalc.isSome = true)
    (hbad : ∃ cand ∈ nodes, jsVerdict resource cand = none) :
    jsExplicitForNode E pos resource nodes = none := by
  have hguard : ¬ ((resource.linkCalc.isNone && resource.inlineCalc.isNone) = true) := by
    intro hc
    simp only [Bool.and_eq_true, Option.isNone_iff_eq_none] at hc
    rcases hsome with h | h
    · rw [hc.1] at h
      simp at h
    · rw [hc.2] at h
      simp at h
  unfold jsExplicitForNode
  rw [if_neg hguard]
  obtain ⟨cand, hcand, hv⟩ := hbad
  obtain ⟨i, hi⟩ := List.mem_iff_getElem?.1 hcand
  refine foldlM_option_none _ (fun pc => jsVerdict resource pc.2 = none) ?_ _ _
    ⟨(i, cand), List.mk_mem_enum_iff_getElem?.2 hi, hv⟩
  intro b pc hψ
  rcases pc with ⟨cp, cc⟩
  cases cc with
  | inl comp k =>
    have hnone : resource.inlineCalc = none := by
      simpa [jsVerdict] using hψ
    simp [hnone]
  | lnk comp k =>
    have hnone : resource.linkCalc = none := by
      simpa [jsVerdict] using hψ
    simp [hnone]

/-- The whole JavaScript explicit phase panics when some node with a
calculator meets a candidate whose matching calculator is nil. -/
theorem jsExplicitEdges_none {nodes : List jsResource} {E : List (Nat × Nat)}
    {p : Nat} {resource : jsResource}
    (hmem : nodes[p]? = some resource)
    (hsome : resource.linkCalc.isSome = true ∨ resource.inlineCalc.isSome = true)
    (hbad : ∃ cand ∈ nodes, jsVerdict resource cand = none) :
    jsExplicitEdges nodes E = none := by
  unfold jsExplicitEdges
  refine foldlM_option_none _
    (fun pr => (pr.2.linkCalc.isSome = true ∨ pr.2.inlineCalc.isSome = true) ∧
      ∃ cand ∈ nodes, jsVerdict pr.2 cand = none) ?_ _ _
    ⟨(p, resource), List.mk_mem_enum_iff_getElem?.2 hmem, hsome, hbad⟩
  intro b pr hψ
  exact jsExplicitForNode_none hψ.1 hψ.2

/-! ## Well-formedness of the built graphs -/

theorem collectResources_GraphWF (eq : R → R → Bool) (skip : R → Bool)
    (g : Graph R) (rs : List R) (h : GraphWF g) :
    GraphWF (collectResources eq skip g rs) := by
  obtain ⟨hnd, hwf⟩ := h
  rcases collect_spec eq skip rs g none hwf
    (fun lv hlv => Option.noConfusion hlv) with ⟨⟨added, hnodes⟩, hedges, _⟩
  have hsorted := collectNewEligibles_sorted eq skip rs g.nodes
  have hge := collectNewEligibles_ge eq skip rs g.nodes
  have hlen : (collectResources eq skip g rs).nodes.length =
      g.nodes.length + added.length := by
    show (rs.foldl (collectStep eq skip) (g, none)).1.nodes.length = _
    rw [hnodes]
    simp
  constructor
  · show ((rs.foldl (collectStep eq skip) (g, none)).1.edges).Nodup
    rw [hedges, List.nodup_append]
    refine ⟨hnd, chainEdges_nodup none _ hsorted, ?_⟩
    intro e he hechain
    rcases chainEdges_endpoints none _ e hechain with ⟨h1, _⟩
    have hg1 := hge e.1 h1
    have hg2 := (hwf e he).1
    omega
  · intro e he
    have hmem : e ∈ g.edges ++
        chainEdges none (collectNewEligibles eq skip g.nodes rs) := by
      rw [← hedges]
      exact he
    rcases List.mem_append.1 hmem with hm | hm
    · have := hwf e hm
      omega
    · rcases chainEdges_endpoints none _ e hm with ⟨h1, h2⟩
      have hf1 := collectNewEligibles_lt eq skip rs g none e.1 h1
      rcases h2 with h2 | h2
      · exact ⟨hf1, collectNewEligibles_lt eq skip rs g none e.2 h2⟩
      · exact Option.noConfusion h2

/-- `collectJS` in terms of two independent `collectResources` runs on
the routed sublists. -/
theorem collectJS_eq (headJS footJS : Graph jsResource)
    (rs : List jsResource) :
    collectJS headJS footJS rs =
      (collectResources jsResource.equal jsSkip headJS
        (rs.filter (fun r => !r.PlaceInFooter)),
       collectResources jsResource.equal jsSkip footJS
        (rs.filter (fun r => r.PlaceInFooter))) := by
  unfold collectJS collectResources
  rw [collectJS_split]

theorem buildComponent_GraphWF (gs : resourceGraphs) (comp : Component)
    (h1 : GraphWF gs.css) (h2 : GraphWF gs.headJS) (h3 : GraphWF gs.footJS) :
    GraphWF (buildComponent gs comp).css ∧
    GraphWF (buildComponent gs comp).headJS ∧
    GraphWF (buildComponent gs comp).footJS := by
  rcases comp with ⟨lc, ec, lj, ej⟩
  unfold buildComponent
  cases lc <;> cases ec <;> cases lj <;> cases ej <;>
    dsimp only <;>
    (try simp only [collectJS_eq]) <;>
    refine ⟨?_, ?_, ?_⟩ <;>
    first
      | assumption
      | (apply collectResources_GraphWF
         first
           | assumption
           | (apply collectResources_GraphWF
              assumption))

theorem buildGraphsCollect_aux :
    ∀ (comps : List Component) (gs : resourceGraphs),
      GraphWF gs.css → GraphWF gs.headJS → GraphWF gs.footJS →
      GraphWF (comps.foldl buildComponent gs).css ∧
      GraphWF (comps.foldl buildComponent gs).headJS ∧
      GraphWF (comps.foldl buildComponent gs).footJS
  | [], gs, h1, h2, h3 => ⟨h1, h2, h3⟩
  | comp :: rest, gs, h1, h2, h3 => by
    rw [List.foldl_cons]
    obtain ⟨h1', h2', h3'⟩ := buildComponent_GraphWF gs comp h1 h2 h3
    exact buildGraphsCollect_aux rest _ h1' h2' h3'

theorem buildGraphsCollect_GraphWF (comps : List Component) :
    GraphWF (buildGraphsCollect comps).css ∧
    GraphWF (buildGraphsCollect comps).headJS ∧
    GraphWF (buildGraphsCollect comps).footJS := by
  refine buildGraphsCollect_aux comps _ ?_ ?_ ?_ <;>
    exact ⟨List.nodup_nil, fun e he => absurd he (List.not_mem_nil e)⟩

/-- The CSS graph `buildGraphs` produces is well formed. -/
theorem buildGraphsCSS_GraphWF (comps : List Component) :
    GraphWF (buildGraphsCSS comps) := by
  obtain ⟨⟨hnd, hwf⟩, _, _⟩ := buildGraphsCollect_GraphWF comps
  exact ⟨nodup_cssExplicitEdges hnd, cssExplicitEdges_wf hwf⟩

/-! ## Lemmas about the resource-loading pass -/

theorem parseCSSResources_not_ok {dir : List (String × String)} :
    ∀ {rs : List cssResource} (r : cssResource), r ∈ rs →
      (∃ msg, r.getCSS dir = .error msg) →
      parseCSSResources dir rs ≠ .ok ()
  | [], r, hr, _ => absurd hr (List.not_mem_nil r)
  | a :: rs, r, hr, herr => by
    show (parseResource dir a.getCSS >>= fun _ => parseCSSResources dir rs) ≠
      .ok ()
    rcases List.mem_cons.1 hr with rfl | hr
    · obtain ⟨msg, hmsg⟩ := herr
      unfold parseResource
      rw [hmsg]
      intro hcontra
      exact Except.noConfusion hcontra
    · cases hres : parseResource dir a.getCSS with
      | error e =>
        intro hcontra
        exact Except.noConfusion hcontra
      | ok u =>
        show parseCSSResources dir rs ≠ .ok ()
        exact parseCSSResources_not_ok r hr herr

theorem parseJSResources_not_ok {dir : List (String × String)} :
    ∀ {rs : List jsResource} (r : jsResource), r ∈ rs →
      (∃ msg, r.getJS dir = .error msg) →
      parseJSResources dir rs ≠ .ok ()
  | [], r, hr, _ => absurd hr (List.not_mem_nil r)
  | a :: rs, r, hr, herr => by
    show (parseResource dir a.getJS >>= fun _ => parseJSResources dir rs) ≠
      .ok ()
    rcases List.mem_cons.1 hr with rfl | hr
    · obtain ⟨msg, hmsg⟩ := herr
      unfold parseResource
      rw [hmsg]
      intro hcontra
      exact Except.noConfusion hcontra
    · cases hres : parseResource dir a.getJS with
      | error e =>
        intro hcontra
        exact Except.noConfusion hcontra
      | ok u =>
        show parseJSResources dir rs ≠ .ok ()
        exact parseJSResources_not_ok r hr herr

/-! ## Determinism up to node renumbering -/

theorem sortNodesByPos_total [Inhabited Node] (cmp : Node → Node → Int)
    (htot : ∀ a b : Node, cmp a b ≤ 0 ∨ cmp b a ≤ 0)
    (nodes : List Node) (a b : Nat) :
    sortNodesByPos cmp nodes a b = true ∨ sortNodesByPos cmp nodes b a = true := by
  unfold sortNodesByPos
  rcases htot (nodes.getD a default) (nodes.getD b default) with h | h
  · exact Or.inl (decide_eq_true h)
  · exact Or.inr (decide_eq_true h)

theorem sortNodesByPos_trans [Inhabited Node] (cmp : Node → Node → Int)
    (htrans : ∀ a b c : Node, cmp a b ≤ 0 → cmp b c ≤ 0 → cmp a c ≤ 0)
    (nodes : List Node) (a b c : Nat)
    (h1 : sortNodesByPos cmp nodes a b = true)
    (h2 : sortNodesByPos cmp nodes b c = true) :
    sortNodesByPos cmp nodes a c = true := by
  unfold sortNodesByPos at h1 h2 ⊢
  exact decide_eq_true (htrans _ _ _ (of_decide_eq_true h1) (of_decide_eq_true h2))

theorem stepEdges_map {π σ : Nat → Nat} {n : Nat}
    {E E' : List (Nat × Nat)} {pos : Nat}
    (hinv1 : ∀ i, i < n → σ (π i) = i) (hinv2 : ∀ j, j < n → π (σ j) = j)
    (hwfE : ∀ e ∈ E, e.1 < n ∧ e.2 < n)
    (hwfE' : ∀ e ∈ E', e.1 < n ∧ e.2 < n)
    (hfwd : ∀ e ∈ E, (π e.1, π e.2) ∈ E')
    (hbwd : ∀ e' ∈ E', (σ e'.1, σ e'.2) ∈ E)
    (hpos : pos < n) :
    (∀ e ∈ stepEdges E pos, (π e.1, π e.2) ∈ stepEdges E' (π pos)) ∧
    (∀ e' ∈ stepEdges E' (π pos), (σ e'.1, σ e'.2) ∈ stepEdges E pos) := by
  constructor
  · intro e he
    rcases List.mem_filter.1 he with ⟨heE, hne⟩
    have hne2 : e.2 ≠ pos := by simpa using hne
    refine List.mem_filter.2 ⟨hfwd e heE, ?_⟩
    simp only [Bool.not_eq_eq_eq_not, Bool.not_true, beq_eq_false_iff_ne, ne_eq]
    intro hc
    apply hne2
    have h2n : e.2 < n := (hwfE e heE).2
    calc e.2 = σ (π e.2) := (hinv1 e.2 h2n).symm
      _ = σ (π pos) := by rw [hc]
      _ = pos := hinv1 pos hpos
  · intro e' he'
    rcases List.mem_filter.1 he' with ⟨heE', hne⟩
    have hne2 : e'.2 ≠ π pos := by simpa using hne
    refine List.mem_filter.2 ⟨hbwd e' heE', ?_⟩
    simp only [Bool.not_eq_eq_eq_not, Bool.not_true, beq_eq_false_iff_ne, ne_eq]
    intro hc
    apply hne2
    have h2n : e'.2 < n := (hwfE' e' heE').2
    calc e'.2 = π (σ e'.2) := (hinv2 e'.2 h2n).symm
      _ = π pos := by rw [hc]

theorem stepNewReady_map {π σ : Nat → Nat} {n : Nat}
    {E E' : List (Nat × Nat)} {pos : Nat}
    (hinv1 : ∀ i, i < n → σ (π i) = i) (hinv2 : ∀ j, j < n → π (σ j) = j)
    (hndE : E.Nodup) (hndE' : E'.Nodup)
    (hwfE : ∀ e ∈ E, e.1 < n ∧ e.2 < n)
    (hwfE' : ∀ e ∈ E', e.1 < n ∧ e.2 < n)
    (hfwd : ∀ e ∈ E, (π e.1, π e.2) ∈ E')
    (hbwd : ∀ e' ∈ E', (σ e'.1, σ e'.2) ∈ E)
    (hpos : pos < n) :
    List.Perm (stepNewReady E' (π pos)) ((stepNewReady E pos).map π) := by
  obtain ⟨hsfwd, hsbwd⟩ := stepEdges_map hinv1 hinv2 hwfE hwfE' hfwd hbwd hpos
  have hmemNR : ∀ c ∈ stepNewReady E pos, c < n := by
    intro c hc
    exact (hwfE _ (mem_stepNewReady.1 hc).1).1
  rw [List.perm_ext_iff_of_nodup (nodup_stepNewReady hndE') ?_]
  · intro c'
    constructor
    · intro hc'
      rcases mem_stepNewReady.1 hc' with ⟨hcE', hcempty⟩
      have hcn : c' < n := (hwfE' _ hcE').1
      have hEmem : (σ c', pos) ∈ E := by
        have := hbwd _ hcE'
        simpa [hinv1 pos hpos] using this
      have hempty : (stepEdges E pos).filter (fun e => e.1 == σ c') = [] := by
        refine List.filter_eq_nil_iff.2 (fun e he hpred => ?_)
        have hfst : e.1 = σ c' := by simpa using hpred
        have := hsfwd e he
        have hπ1 : π e.1 = c' := by
          rw [hfst, hinv2 c' hcn]
        rw [hπ1] at this
        exact List.filter_eq_nil_iff.1 hcempty _ this (by simp)
      refine List.mem_map.2 ⟨σ c', mem_stepNewReady.2 ⟨hEmem, hempty⟩, hinv2 c' hcn⟩
    · intro hc'
      rcases List.mem_map.1 hc' with ⟨c, hc, rfl⟩
      rcases mem_stepNewReady.1 hc with ⟨hcE, hcempty⟩
      have hcn : c < n := (hwfE _ hcE).1
      have hE'mem : (π c, π pos) ∈ E' := hfwd _ hcE
      have hempty : (stepEdges E' (π pos)).filter (fun e => e.1 == π c) = [] := by
        refine List.filter_eq_nil_iff.2 (fun e' he' hpred => ?_)
        have hfst : e'.1 = π c := by simpa using hpred
        have := hsbwd e' he'
        have hσ1 : σ e'.1 = c := by
          rw [hfst, hinv1 c hcn]
        rw [hσ1] at this
        exact List.filter_eq_nil_iff.1 hcempty _ this (by simp)
      exact mem_stepNewReady.2 ⟨hE'mem, hempty⟩
  · refine (nodup_stepNewReady hndE).map_on ?_
    intro a ha b hb hab
    have han : a < n := hmemNR a ha
    have hbn : b < n := hmemNR b hb
    calc a = σ (π a) := (hinv1 a han).symm
      _ = σ (π b) := by rw [hab]
      _ = b := hinv1 b hbn

theorem insertionSortB_map_eq {π : Nat → Nat} {n : Nat}
    (le le' : Nat → Nat → Bool)
    (hle : ∀ a b, a < n → b < n → le' (π a) (π b) = le a b)
    (htot : ∀ a b, le a b = true ∨ le b a = true)
    (htot' : ∀ a b, le' a b = true ∨ le' b a = true)
    (htrans : ∀ a b c, le a b = true → le b c = true → le a c = true)
    (htrans' : ∀ a b c, le' a b = true → le' b c = true → le' a c = true)
    (hanti' : ∀ a b, a < n → b < n → le' a b = true → le' b a = true → a = b)
    (hπ : ∀ i, i < n → π i < n)
    (l l' : List Nat)
    (hmem : ∀ p ∈ l, p < n)
    (hperm : List.Perm l' (l.map π)) :
    insertionSortB le' l' = (insertionSortB le l).map π := by
  refine eq_of_perm_of_sortedB le' ?_ ?_ ?_ ?_
  · exact ((insertionSortB_perm le' l').trans hperm).trans
      ((insertionSortB_perm le l).map π).symm
  · exact sortedB_insertionSortB le' htot' htrans' l'
  · have hs := sortedB_insertionSortB le htot htrans l
    unfold SortedB at hs ⊢
    rw [List.pairwise_map]
    refine List.Pairwise.imp_of_mem ?_ hs
    intro a b ha hb hab
    rw [hle a b (hmem a ((mem_insertionSortB le).1 ha))
      (hmem b ((mem_insertionSortB le).1 hb))]
    exact hab
  · intro a ha b hb h1 h2
    have hmem' : ∀ x, x ∈ insertionSortB le' l' → x < n := by
      intro x hx
      have : x ∈ l.map π := hperm.mem_iff.1 ((mem_insertionSortB le').1 hx)
      rcases List.mem_map.1 this with ⟨p, hp, rfl⟩
      exact hπ p (hmem p hp)
    exact hanti' a b (hmem' a ha) (hmem' b hb) h1 h2

/-- The walk loop commutes with a renumbering of the node positions,
provided the comparator separates distinct positions. -/
theorem walkLoop_map [Inhabited Node] (cmp : Node → Node → Int)
    (nodes nodes' : List Node) (π σ : Nat → Nat) (n : Nat)
    (hnodes : ∀ i, i < n → nodes'.getD (π i) default = nodes.getD i default)
    (hπ : ∀ i, i < n → π i < n) (hσ : ∀ j, j < n → σ j < n)
    (hinv1 : ∀ i, i < n → σ (π i) = i) (hinv2 : ∀ j, j < n → π (σ j) = j)
    (htot : ∀ a b : Node, cmp a b ≤ 0 ∨ cmp b a ≤ 0)
    (htrans : ∀ a b c : Node, cmp a b ≤ 0 → cmp b c ≤ 0 → cmp a c ≤ 0)
    (hanti : ∀ a b, a < n → b < n → sortNodesByPos cmp nodes a b = true →
      sortNodesByPos cmp nodes b a = true → a = b) :
    ∀ (fuel : Nat) (E E' : List (Nat × Nat)) (ready acc : List Nat),
      E.Nodup → E'.Nodup →
      (∀ e ∈ E, e.1 < n ∧ e.2 < n) → (∀ e ∈ E', e.1 < n ∧ e.2 < n) →
      (∀ e ∈ E, (π e.1, π e.2) ∈ E') →
      (∀ e' ∈ E', (σ e'.1, σ e'.2) ∈ E) →
      (∀ p ∈ ready, p < n) →
      (walkLoop (sortNodesByPos cmp nodes') fuel E' (ready.map π)
          (acc.map π)).1 =
        ((walkLoop (sortNodesByPos cmp nodes) fuel E ready acc).1).map π ∧
      (∀ e ∈ (walkLoop (sortNodesByPos cmp nodes) fuel E ready acc).2,
        (π e.1, π e.2) ∈
          (walkLoop (sortNodesByPos cmp nodes') fuel E' (ready.map π)
            (acc.map π)).2) ∧
      (∀ e' ∈ (walkLoop (sortNodesByPos cmp nodes') fuel E' (ready.map π)
          (acc.map π)).2,
        (σ e'.1, σ e'.2) ∈
          (walkLoop (sortNodesByPos cmp nodes) fuel E ready acc).2)
  | 0, E, E', ready, acc, _, _, _, _, hfwd, hbwd, _ => by
    cases ready <;> exact ⟨rfl, hfwd, hbwd⟩
  | fuel + 1, E, E', [], acc, _, _, _, _, hfwd, hbwd, _ => ⟨rfl, hfwd, hbwd⟩
  | fuel + 1, E, E', pos :: rest, acc, hndE, hndE', hwfE, hwfE', hfwd, hbwd,
      hreadyn => by
    have hposn : pos < n := hreadyn pos (List.mem_cons_self pos rest)
    have hrestn : ∀ p ∈ rest, p < n :=
      fun p hp => hreadyn p (List.mem_cons_of_mem pos hp)
    obtain ⟨hsfwd, hsbwd⟩ :=
      stepEdges_map hinv1 hinv2 hwfE hwfE' hfwd hbwd hposn
    have hNRperm := stepNewReady_map hinv1 hinv2 hndE hndE' hwfE hwfE'
      hfwd hbwd hposn
    have hle : ∀ a b, a < n → b < n →
        sortNodesByPos cmp nodes' (π a) (π b) = sortNodesByPos cmp nodes a b := by
      intro a b ha hb
      unfold sortNodesByPos
      rw [hnodes a ha, hnodes b hb]
    have hanti' : ∀ a b, a < n → b < n →
        sortNodesByPos cmp nodes' a b = true →
        sortNodesByPos cmp nodes' b a = true → a = b := by
      intro a b ha hb h1 h2
      rw [← hinv2 a ha, ← hinv2 b hb] at h1 h2
      rw [hle _ _ (hσ a ha) (hσ b hb)] at h1
      rw [hle _ _ (hσ b hb) (hσ a ha)] at h2
      have := hanti (σ a) (σ b) (hσ a ha) (hσ b hb) h1 h2
      calc a = π (σ a) := (hinv2 a ha).symm
        _ = π (σ b) := by rw [this]
        _ = b := hinv2 b hb
    have hNRn : ∀ c ∈ stepNewReady E pos, c < n := by
      intro c hc
      exact (hwfE _ (mem_stepNewReady.1 hc).1).1
    have hready2 : stepReady (sortNodesByPos cmp nodes') E' (π pos)
        (rest.map π) = (stepReady (sortNodesByPos cmp nodes) E pos rest).map π := by
      unfold stepReady
      by_cases hNRempty : (stepNewReady E pos).isEmpty = true
      · have hnil : stepNewReady E pos = [] := List.isEmpty_iff.1 hNRempty
        have hnil' : stepNewReady E' (π pos) = [] := by
          have := hNRperm
          rw [hnil] at this
          simpa using this.length_eq
        rw [if_pos (by rw [hnil']; rfl), if_pos hNRempty]
      · have hne' : ¬ (stepNewReady E' (π pos)).isEmpty = true := by
          intro hc
          apply hNRempty
          have h0 := hNRperm.length_eq
          rw [List.isEmpty_iff.1 hc, List.length_map] at h0
          rw [List.isEmpty_iff]
          exact List.length_eq_zero.1 h0.symm
        rw [if_neg hne', if_neg hNRempty]
        refine @insertionSortB_map_eq π n
          (sortNodesByPos cmp nodes) (sortNodesByPos cmp nodes') hle
          (sortNodesByPos_total cmp htot nodes)
          (sortNodesByPos_total cmp htot nodes')
          (sortNodesByPos_trans cmp htrans nodes)
          (sortNodesByPos_trans cmp htrans nodes')
          hanti' hπ _ _ ?_ ?_
        · intro p hp
          rcases List.mem_append.1 hp with h | h
          · exact hrestn p h
          · exact hNRn p h
        · rw [List.map_append]
          exact List.Perm.append_left _ hNRperm
    have hreadyn2 : ∀ p ∈ stepReady (sortNodesByPos cmp nodes) E pos rest,
        p < n := by
      intro p hp
      rcases (mem_stepReady _).1 hp with h | h
      · exact hrestn p h
      · exact hNRn p h
    have haccmap : List.map π acc ++ [π pos] = (acc ++ [pos]).map π := by
      rw [List.map_append]
      rfl
    simp only [List.map_cons]
    rw [walkLoop_cons, walkLoop_cons, hready2, haccmap]
    exact walkLoop_map cmp nodes nodes' π σ n hnodes hπ hσ hinv1 hinv2
      htot htrans hanti fuel (stepEdges E pos) (stepEdges E' (π pos))
      (stepReady (sortNodesByPos cmp nodes) E pos rest) (acc ++ [pos])
      (hndE.filter _) (hndE'.filter _)
      (fun e he => hwfE e (List.mem_of_mem_filter he))
      (fun e he => hwfE' e (List.mem_of_mem_filter he))
      hsfwd hsbwd hreadyn2

/-- `walkGraphPos` commutes with a renumbering of node positions: if two
graphs hold the same nodes and edges up to a position bijection, and the
walk of the first succeeds, the walk of the second succeeds with the
renumbered output.  The comparator must be total, transitive and strict
(antisymmetric) on the positions present. -/
theorem walkGraphPos_map [Inhabited Node] (cmp : Node → Node → Int)
    (rid : Node → String) (g g' : Graph Node) (π σ : Nat → Nat)
    (hnodes : ∀ i, i < g.nodes.length →
      g'.nodes.getD (π i) default = g.nodes.getD i default)
    (hn : g'.nodes.length = g.nodes.length)
    (hπ : ∀ i, i < g.nodes.length → π i < g.nodes.length)
    (hσ : ∀ j, j < g.nodes.length → σ j < g.nodes.length)
    (hinv1 : ∀ i, i < g.nodes.length → σ (π i) = i)
    (hinv2 : ∀ j, j < g.nodes.length → π (σ j) = j)
    (htot : ∀ a b : Node, cmp a b ≤ 0 ∨ cmp b a ≤ 0)
    (htrans : ∀ a b c : Node, cmp a b ≤ 0 → cmp b c ≤ 0 → cmp a c ≤ 0)
    (hanti : ∀ a b, a < g.nodes.length → b < g.nodes.length →
      sortNodesByPos cmp g.nodes a b = true →
      sortNodesByPos cmp g.nodes b a = true → a = b)
    (hwf : GraphWF g) (hwf' : GraphWF g')
    (hfwd : ∀ e ∈ g.edges, (π e.1, π e.2) ∈ g'.edges)
    (hbwd : ∀ e' ∈ g'.edges, (σ e'.1, σ e'.2) ∈ g.edges)
    {res : List Nat} (hok : walkGraphPos cmp rid g = .ok res) :
    walkGraphPos cmp rid g' = .ok (res.map π) := by
  have hwfE : ∀ e ∈ g.edges, e.1 < g.nodes.length ∧ e.2 < g.nodes.length :=
    hwf.2
  have hwfE' : ∀ e ∈ g'.edges,
      e.1 < g.nodes.length ∧ e.2 < g.nodes.length := by
    intro e he
    have := hwf'.2 e he
    rw [hn] at this
    exact this
  have hπinj : ∀ a b, a < g.nodes.length → b < g.nodes.length →
      π a = π b → a = b := by
    intro a b ha hb h
    have := congrArg σ h
    rwa [hinv1 a ha, hinv1 b hb] at this
  have hle : ∀ a b, a < g.nodes.length → b < g.nodes.length →
      sortNodesByPos cmp g'.nodes (π a) (π b) =
        sortNodesByPos cmp g.nodes a b := by
    intro a b ha hb
    unfold sortNodesByPos
    rw [hnodes a ha, hnodes b hb]
  have hanti' : ∀ a b, a < g.nodes.length → b < g.nodes.length →
      sortNodesByPos cmp g'.nodes a b = true →
      sortNodesByPos cmp g'.nodes b a = true → a = b := by
    intro a b ha hb h1 h2
    rw [← hinv2 a ha, ← hinv2 b hb] at h1 h2
    rw [hle _ _ (hσ a ha) (hσ b hb)] at h1
    rw [hle _ _ (hσ b hb) (hσ a ha)] at h2
    have := hanti (σ a) (σ b) (hσ a ha) (hσ b hb) h1 h2
    calc a = π (σ a) := (hinv2 a ha).symm
      _ = π (σ b) := by rw [this]
      _ = b := hinv2 b hb
  have hready : walkInitReady cmp g' = (walkInitReady cmp g).map π := by
    unfold walkInitReady
    rw [hn]
    refine @insertionSortB_map_eq π g.nodes.length
      (sortNodesByPos cmp g.nodes) (sortNodesByPos cmp g'.nodes) hle
      (sortNodesByPos_total cmp htot g.nodes)
      (sortNodesByPos_total cmp htot g'.nodes)
      (sortNodesByPos_trans cmp htrans g.nodes)
      (sortNodesByPos_trans cmp htrans g'.nodes)
      hanti' hπ _ _ ?_ ?_
    · intro p hp
      exact List.mem_range.1 (List.mem_of_mem_filter hp)
    · rw [List.perm_ext_iff_of_nodup
        ((List.nodup_range _).filter _) ?_]
      · intro j
        constructor
        · intro hj
          rcases List.mem_filter.1 hj with ⟨hjr, hjf⟩
          have hjn : j < g.nodes.length := List.mem_range.1 hjr
          refine List.mem_map.2 ⟨σ j, ?_, hinv2 j hjn⟩
          refine List.mem_filter.2 ⟨List.mem_range.2 (hσ j hjn), ?_⟩
          rw [List.isEmpty_iff, List.filter_eq_nil_iff]
          intro e he hc
          have hmem' := hfwd e he
          have he1 : e.1 = σ j := by simpa using hc
          rw [he1, hinv2 j hjn] at hmem'
          have := List.filter_eq_nil_iff.1 (List.isEmpty_iff.1 hjf)
            _ hmem'
          simp at this
        · intro hj
          rcases List.mem_map.1 hj with ⟨i, hi, rfl⟩
          rcases List.mem_filter.1 hi with ⟨hir, hif⟩
          have hin : i < g.nodes.length := List.mem_range.1 hir
          refine List.mem_filter.2 ⟨List.mem_range.2 (hπ i hin), ?_⟩
          rw [List.isEmpty_iff, List.filter_eq_nil_iff]
          intro e' he' hc
          have hmem := hbwd e' he'
          have he1 : e'.1 = π i := by simpa using hc
          rw [he1, hinv1 i hin] at hmem
          have := List.filter_eq_nil_iff.1 (List.isEmpty_iff.1 hif)
            _ hmem
          simp at this
      · refine List.Nodup.map_on ?_ ((List.nodup_range _).filter _)
        intro a ha b hb hab
        exact hπinj a b (List.mem_range.1 (List.mem_of_mem_filter ha))
          (List.mem_range.1 (List.mem_of_mem_filter hb)) hab
  have hElen : g'.edges.length = g.edges.length := by
    have hperm : List.Perm g'.edges
        (g.edges.map (fun e => (π e.1, π e.2))) := by
      rw [List.perm_ext_iff_of_nodup hwf'.1 ?_]
      · intro e'
        constructor
        · intro he'
          refine List.mem_map.2 ⟨(σ e'.1, σ e'.2), hbwd e' he', ?_⟩
          have h1 := (hwfE' e' he').1
          have h2 := (hwfE' e' he').2
          simp [hinv2 _ h1, hinv2 _ h2]
        · intro he'
          rcases List.mem_map.1 he' with ⟨e, he, rfl⟩
          exact hfwd e he
      · refine List.Nodup.map_on ?_ hwf.1
        intro e he f hf hef
        have h1 : π e.1 = π f.1 := congrArg Prod.fst hef
        have h2 : π e.2 = π f.2 := congrArg Prod.snd hef
        have he1 := hπinj _ _ (hwfE e he).1 (hwfE f hf).1 h1
        have he2 := hπinj _ _ (hwfE e he).2 (hwfE f hf).2 h2
        exact Prod.ext he1 he2
    have := hperm.length_eq
    rwa [List.length_map] at this
  obtain ⟨h1, _, hb⟩ := walkLoop_map cmp g.nodes g'.nodes π σ
    g.nodes.length hnodes hπ hσ hinv1 hinv2 htot htrans hanti
    (g.edges.length + (walkInitReady cmp g).length)
    g.edges g'.edges (walkInitReady cmp g) []
    hwf.1 hwf'.1 hwfE hwfE' hfwd hbwd
    (fun p hp => ((mem_walkInitReady cmp g p).1 hp).1)
  have hrun' : walkRun cmp g' =
      walkLoop (sortNodesByPos cmp g'.nodes)
        (g.edges.length + (walkInitReady cmp g).length)
        g'.edges ((walkInitReady cmp g).map π) (List.map π []) := by
    unfold walkRun
    rw [hready, hElen, List.length_map]
    rfl
  rw [walkGraphPos_def] at hok
  split at hok
  case isFalse => exact absurd hok (by simp)
  case isTrue hEmp =>
    have hres : (walkRun cmp g).1 = res := by injection hok
    have hnil : (walkRun cmp g).2 = [] := List.isEmpty_iff.1 hEmp
    have hout1 : (walkRun cmp g').1 = res.map π := by
      rw [hrun', h1]
      have : (walkLoop (sortNodesByPos cmp g.nodes)
          (g.edges.length + (walkInitReady cmp g).length)
          g.edges (walkInitReady cmp g) []).1 = res := hres
      rw [this]
    have hout2 : (walkRun cmp g').2 = [] := by
      rw [hrun']
      refine List.eq_nil_iff_forall_not_mem.2 (fun e' he' => ?_)
      have hmem : (σ e'.1, σ e'.2) ∈ (walkRun cmp g).2 := hb e' he'
      rw [hnil] at hmem
      exact List.not_mem_nil _ hmem
    rw [walkGraphPos_def, hout2, hout1]
    rfl

/-! ## Helper lemmas for the claim theorems -/

/-- An edge list whose every edge points from a later position to an
earlier one is acyclic. -/
theorem acyclic_of_snd_lt_fst {E : List (Nat × Nat)}
    (h : ∀ e ∈ E, e.2 < e.1) : Acyclic E := by
  intro v hv
  have hlt : ∀ a b : Nat, Relation.TransGen (edgeStep E) a b → b < a := by
    intro a b hab
    induction hab with
    | single h1 => exact h _ h1
    | tail _ h2 ih => exact lt_trans (h _ h2) ih
  exact absurd (hlt v v hv) (lt_irrefl v)

/-- `buildGraphs` returns `none` (the nil-calculator panic) as soon as the
header JavaScript explicit phase does. -/
theorem buildGraphs_none_of_headJS (comps : List Component)
    (h : jsExplicitEdges (buildGraphsCollect comps).headJS.nodes
        (buildGraphsCollect comps).headJS.edges = none) :
    buildGraphs comps = none := by
  cases hfoot : jsExplicitEdges (buildGraphsCollect comps).footJS.nodes
      (buildGraphsCollect comps).footJS.edges with
  | none => simp only [buildGraphs, h, hfoot]
  | some footE => simp only [buildGraphs, h, hfoot]

/-! ## The claim theorems -/

/-- Claim C1: for every well-formed acyclic resource graph, `walkGraph`
returns without error a sequence containing each node exactly once (the
returned positions are a permutation of all node positions) in a valid
topological order: for every edge `u → v` (`u` must render after `v`),
`v` appears strictly before `u` in the output. -/
theorem C1_acyclic_walk_topological {Node : Type u} [Inhabited Node]
    (cmp : Node → Node → Int) (rid : Node → String) (g : Graph Node)
    (hwf : GraphWF g) (hacyc : Acyclic g.edges) :
    ∃ res, walkGraphPos cmp rid g = .ok res ∧
      walkGraph cmp rid g = .ok (res.map (fun p => g.nodes.getD p default)) ∧
      List.Perm res (List.range g.nodes.length) ∧
      ∀ e ∈ g.edges, before res e.2 e.1 := by
  have hok := walkGraphPos_acyclic_ok cmp rid g hwf hacyc
  obtain ⟨hperm, htopo⟩ := walkGraphPos_ok hwf hok
  refine ⟨(walkRun cmp g).1, hok, ?_, hperm, htopo⟩
  rw [walkGraph_eq, hok]
  rfl

theorem C1_witness :
    ∃ res, walkGraphPos sortNodesCSS cssResourceID
      ⟨[cssResource.inl { TemplatePath := "a" } {},
        cssResource.inl { TemplatePath := "b" } {}], [(1, 0)]⟩ = .ok res ∧
      before res 0 1 := by
  obtain ⟨res, hok, _, _, htopo⟩ :=
    C1_acyclic_walk_topological sortNodesCSS cssResourceID
      ⟨[cssResource.inl { TemplatePath := "a" } {},
        cssResource.inl { TemplatePath := "b" } {}], [(1, 0)]⟩
      ⟨by decide, by decide⟩ (acyclic_of_snd_lt_fst (by decide))
  exact ⟨res, hok, htopo (1, 0) (by decide)⟩

/-- Claim C4: whenever edges remain after the ready set is exhausted — in
particular when the graph holds both `X`-before-`Y` and `Y`-before-`X` —
`walkGraph` returns the structured cycle error, whose data lists the
unresolved edges (a nonempty subset of the graph's edges, containing both
mutually blocking edges) and a human-readable identity for every node;
no order is returned. -/
theorem C4_cycle_error_reported {Node : Type u} [Inhabited Node]
    (cmp : Node → Node → Int) (rid : Node → String) (g : Graph Node)
    (hwf : GraphWF g) (u v : Nat)
    (huv : (u, v) ∈ g.edges) (hvu : (v, u) ∈ g.edges) :
    ∃ err, walkGraph cmp rid g = .error err ∧
      (u, v) ∈ err.edgesLeft ∧ (v, u) ∈ err.edgesLeft ∧
      err.edgesLeft ≠ [] ∧ (∀ e ∈ err.edgesLeft, e ∈ g.edges) ∧
      err.resourceIDs = g.nodes.map rid := by
  obtain ⟨err, herr, h1, h2, h3⟩ := walkGraphPos_cycle_error cmp rid g u v huv hvu
  have herr' : walkGraph cmp rid g = .error err := by
    rw [walkGraph_eq, herr]
    rfl
  obtain ⟨hne, hsub, _⟩ := walkGraphPos_error hwf herr
  exact ⟨err, herr', h1, h2, hne, hsub, h3⟩

theorem C4_witness :
    ∃ err, walkGraph sortNodesCSS cssResourceID
      ⟨[cssResource.lnk { Href := "x" } {}, cssResource.lnk { Href := "y" } {}],
       [(0, 1), (1, 0)]⟩ = .error err ∧
      (0, 1) ∈ err.edgesLeft ∧ (1, 0) ∈ err.edgesLeft ∧
      err.edgesLeft ≠ [] ∧
      err.resourceIDs = ["CSSLink(x)", "CSSLink(y)"] := by
  obtain ⟨err, herr, h1, h2, hne, _, hids⟩ :=
    C4_cycle_error_reported sortNodesCSS cssResourceID
      ⟨[cssResource.lnk { Href := "x" } {}, cssResource.lnk { Href := "y" } {}],
       [(0, 1), (1, 0)]⟩
      ⟨by decide, by decide⟩ 0 1 (by decide) (by decide)
  refine ⟨err, herr, h1, h2, hne, ?_⟩
  rw [hids]
  rfl

/-- Claim C3 (amended): the canonical comparator sorts a LINK-kind
resource before an inline-kind resource of the same family (the spec's
"inline before link" is the wrong way round), and within one kind
ascending lexicographically by identity key; for a graph with no edges
the walk returns exactly the canonically sorted list of all positions,
which is sorted under the comparator. -/
theorem C3_default_order (g : Graph cssResource) (hE : g.edges = []) :
    walkGraphPos sortNodesCSS cssResourceID g =
      .ok (insertionSortB (sortNodesByPos sortNodesCSS g.nodes)
        (List.range g.nodes.length)) ∧
    SortedB (sortNodesByPos sortNodesCSS g.nodes)
      (insertionSortB (sortNodesByPos sortNodesCSS g.nodes)
        (List.range g.nodes.length)) ∧
    (∀ (tag : CSSLink) (c : CSSCalcs) (block : CSSInline) (c' : CSSCalcs),
      sortNodesCSS (.lnk tag c) (.inl block c') = -1 ∧
      sortNodesCSS (.inl block c') (.lnk tag c) = 1) ∧
    (∀ (t1 t2 : CSSLink) (c1 c2 : CSSCalcs),
      stringLt t1.Href t2.Href = true →
      sortNodesCSS (.lnk t1 c1) (.lnk t2 c2) = -1) ∧
    (∀ (b1 b2 : CSSInline) (c1 c2 : CSSCalcs),
      stringLt b1.getKey b2.getKey = true →
      sortNodesCSS (.inl b1 c1) (.inl b2 c2) = -1) :=
  ⟨walkGraphPos_no_edges _ _ _ hE,
   sortedB_insertionSortB _
     (sortNodesByPos_total sortNodesCSS sortNodesCSS_total g.nodes)
     (sortNodesByPos_trans sortNodesCSS sortNodesCSS_trans g.nodes) _,
   fun _ _ _ _ => ⟨rfl, rfl⟩,
   fun t1 t2 c1 c2 h => by simp [sortNodesCSS, h],
   fun b1 b2 c1 c2 h => by simp [sortNodesCSS, h]⟩

theorem C3_witness :
    walkGraphPos sortNodesCSS cssResourceID
      ⟨[cssResource.inl { TemplatePath := "a" } {},
        cssResource.lnk { Href := "b" } {}], []⟩ = .ok [1, 0] := by
  have h := C3_default_order
    ⟨[cssResource.inl { TemplatePath := "a" } {},
      cssResource.lnk { Href := "b" } {}], []⟩ rfl
  rw [h.1]
  rfl

/-- Claim C3 counterexample: the spec's tie-break direction between kinds
is reversed in the code.  The comparator sorts the inline resource (key
"a") AFTER the link resource (key "b"), and on an edgeless two-node graph
holding them the walk outputs the link first, where the claim predicts
the inline (also lexicographically smaller) first. -/
theorem C3_counterexample :
    sortNodesCSS (.inl { TemplatePath := "a" } {}) (.lnk { Href := "b" } {}) = 1 ∧
    sortNodesCSS (.lnk { Href := "b" } {}) (.inl { TemplatePath := "a" } {}) = -1 ∧
    walkGraph sortNodesCSS cssResourceID
      ⟨[cssResource.inl { TemplatePath := "a" } {},
        cssResource.lnk { Href := "b" } {}], []⟩ =
      .ok [cssResource.lnk { Href := "b" } {},
           cssResource.inl { TemplatePath := "a" } {}] :=
  ⟨rfl, rfl, rfl⟩

/-- Claim C9 (amended): the collection phase never creates a self-edge
(every implicit edge points from a later node index to a strictly earlier
one), but the explicit-edge phase compares every node against every node
of the graph INCLUDING ITSELF, so a node whose matching relation
calculator is non-neutral on the node's own value receives a self-edge
`(p, p)`; the no-self-edge invariant holds only for calculators neutral
on (or absent for) their own node. -/
theorem C9_self_edges {R : Type} (eq : R → R → Bool) (skip : R → Bool)
    (g : Graph R) (rs : List R)
    (hwf : ∀ e ∈ g.edges, e.1 < g.nodes.length ∧ e.2 < g.nodes.length)
    (hdesc : ∀ e ∈ g.edges, e.2 < e.1) :
    (∀ e ∈ (collectResources eq skip g rs).edges, e.2 < e.1) ∧
    (∀ e ∈ (collectResources eq skip g rs).edges, e.1 ≠ e.2) ∧
    (∀ (nodes : List cssResource) (E : List (Nat × Nat)) (p : Nat)
       (rp : cssResource), nodes[p]? = some rp →
       cssVerdict rp rp = some .after →
       (p, p) ∈ cssExplicitEdges nodes E) := by
  have hmain : ∀ e ∈ (collectResources eq skip g rs).edges, e.2 < e.1 := by
    intro e he
    rcases collect_spec eq skip rs g none hwf
      (fun lv h => Option.noConfusion h) with ⟨_, hedges, _⟩
    have he' : e ∈ g.edges ++
        chainEdges none (collectNewEligibles eq skip g.nodes rs) := by
      rw [← hedges]
      exact he
    rcases List.mem_append.1 he' with h | h
    · exact hdesc e h
    · exact chainEdges_snd_lt_fst none _ (fun lv hlv => Option.noConfusion hlv)
        (collectNewEligibles_sorted eq skip rs g.nodes) e h
  refine ⟨hmain, fun e he => ne_of_gt (hmain e he), ?_⟩
  intro nodes E p rp hp hv
  exact mem_cssExplicitEdges.2 (Or.inr (Or.inl ⟨rp, rp, hp, hp, hv⟩))

theorem C9_witness :
    (0, 0) ∉ (collectResources cssResource.equal cssSkip ⟨[], []⟩
      [cssResource.inl { TemplatePath := "a" } {},
       cssResource.inl { TemplatePath := "b" } {}]).edges ∧
    (0, 0) ∈ cssExplicitEdges
      [cssResource.lnk { Href := "x" }
        { CSSLinkRelationCalculator := some (fun _ => .after) }] [] := by
  obtain ⟨_, hne, hself⟩ := C9_self_edges cssResource.equal cssSkip ⟨[], []⟩
    [cssResource.inl { TemplatePath := "a" } {},
     cssResource.inl { TemplatePath := "b" } {}]
    (fun e he => absurd he (List.not_mem_nil e))
    (fun e he => absurd he (List.not_mem_nil e))
  exact ⟨fun hmem => hne (0, 0) hmem rfl, hself _ [] 0 _ rfl rfl⟩

/-- Claim C9 counterexample: a single CSS link whose link calculator
answers `After` against every candidate — including the node's own value —
produces the self-edge `(0, 0)` in the graph `buildGraphs` returns,
refuting the claim that no produced graph ever holds a self-edge. -/
theorem C9_counterexample :
    (buildGraphsCSS [{ LinkCSS := some [({ Href := "x" },
        { CSSLinkRelationCalculator := some (fun _ => .after) })] }]).edges =
      [(0, 0)] := rfl

/-- Claim C6 (amended): within one capability invocation the edges added
are exactly the implicit chain over the indices of the resources that are
newly added AND ELIGIBLE (not deduplicated, carrying no relation
calculator, not disabling implicit ordering): each eligible resource gets
exactly one edge to the immediately preceding newly-added ELIGIBLE
resource of the invocation — not to the immediately preceding newly-added
resource, which may be ineligible — and the first eligible resource of
the invocation gets none (the anchor starts empty, so no edge crosses
invocations).  The eligible indices come in declaration order, and every
chain edge runs between two of them, pointing backwards. -/
theorem C6_implicit_chain {R : Type} (eq : R → R → Bool) (skip : R → Bool)
    (g : Graph R) (rs : List R)
    (hwf : ∀ e ∈ g.edges, e.1 < g.nodes.length ∧ e.2 < g.nodes.length) :
    (collectResources eq skip g rs).edges =
      g.edges ++ chainEdges none (collectNewEligibles eq skip g.nodes rs) ∧
    List.Pairwise (· < ·) (collectNewEligibles eq skip g.nodes rs) ∧
    (∀ e ∈ chainEdges none (collectNewEligibles eq skip g.nodes rs),
      e.1 ∈ collectNewEligibles eq skip g.nodes rs ∧
      e.2 ∈ collectNewEligibles eq skip g.nodes rs ∧ e.2 < e.1) ∧
    chainEdges none [] = [] ∧
    (∀ (t : Nat) (rest : List Nat),
      chainEdges none (t :: rest) = chainEdges (some t) rest) ∧
    (∀ (lv t : Nat) (rest : List Nat),
      chainEdges (some lv) (t :: rest) = (t, lv) :: chainEdges (some t) rest) := by
  rcases collect_spec eq skip rs g none hwf
    (fun lv h => Option.noConfusion h) with ⟨_, hedges, _⟩
  refine ⟨hedges, collectNewEligibles_sorted eq skip rs g.nodes, ?_,
    rfl, fun _ _ => rfl, fun _ _ _ => rfl⟩
  intro e he
  obtain ⟨h1, h2⟩ := chainEdges_endpoints none _ e he
  refine ⟨h1, ?_, chainEdges_snd_lt_fst none _
    (fun lv hlv => Option.noConfusion hlv)
    (collectNewEligibles_sorted eq skip rs g.nodes) e he⟩
  rcases h2 with h2 | h2
  · exact h2
  · exact Option.noConfusion h2

theorem C6_witness :
    (collectResources cssResource.equal cssSkip ⟨[], []⟩
      [cssResource.inl { TemplatePath := "a" } {},
       cssResource.inl { TemplatePath := "b" } {},
       cssResource.inl { TemplatePath := "c" } {}]).edges =
      [(1, 0), (2, 1)] := by
  have h := C6_implicit_chain cssResource.equal cssSkip ⟨[], []⟩
    [cssResource.inl { TemplatePath := "a" } {},
     cssResource.inl { TemplatePath := "b" } {},
     cssResource.inl { TemplatePath := "c" } {}]
    (fun e he => absurd he (List.not_mem_nil e))
  rw [h.1]
  rfl

/-- Claim C6 counterexample: in the invocation `[A, B, C]` where `B`
carries a relation calculator (so `B` is newly added but ineligible), `C`
receives its implicit edge to `A` at index 0, not to the immediately
preceding newly-added resource `B` at index 1 as the claim states: the
edge set is `[(2, 0)]`, and all three resources did become nodes. -/
theorem C6_counterexample :
    (collectResources cssResource.equal cssSkip ⟨[], []⟩
      [cssResource.inl { TemplatePath := "a" } {},
       cssResource.inl { TemplatePath := "b" }
         { CSSLinkRelationCalculator := some (fun _ => .neutral) },
       cssResource.inl { TemplatePath := "c" } {}]).nodes.length = 3 ∧
    (collectResources cssResource.equal cssSkip ⟨[], []⟩
      [cssResource.inl { TemplatePath := "a" } {},
       cssResource.inl { TemplatePath := "b" }
         { CSSLinkRelationCalculator := some (fun _ => .neutral) },
       cssResource.inl { TemplatePath := "c" } {}]).edges = [(2, 0)] :=
  ⟨rfl, rfl⟩

/-- Claim C7: a newly seen resource is discarded — the collection state
is left entirely unchanged, so the first occurrence's node with its
calculators is what remains — exactly when some existing node of the same
graph is structurally equal to it; otherwise it is appended as a new
node.  The node list therefore never holds two structurally equal nodes.
Structural equality (`equal` from `css.go` / `js.go`) compares the
identity key and the rendering attributes and ignores the relation
calculators on both sides. -/
theorem C7_dedup_first_wins {R : Type} (eq : R → R → Bool) (skip : R → Bool)
    (g : Graph R) (lastL : Option Nat) (r : R) (rs : List R)
    (hdist : List.Pairwise (fun a b => eq b a = false) g.nodes) :
    (collectStep eq skip (g, lastL) r = (g, lastL) ↔
      (g.nodes.any fun existing => eq r existing) = true) ∧
    ((g.nodes.any fun existing => eq r existing) = false →
      (collectStep eq skip (g, lastL) r).1.nodes = g.nodes ++ [r]) ∧
    List.Pairwise (fun a b => eq b a = false)
      (rs.foldl (collectStep eq skip) (g, lastL)).1.nodes ∧
    (∀ (a b : cssResource) (c c' : CSSCalcs),
      cssResource.equal (a.withCalcs c) (b.withCalcs c') =
        cssResource.equal a b) ∧
    (∀ (a b : jsResource) (c c' : JSCalcs),
      jsResource.equal (a.withCalcs c) (b.withCalcs c') =
        jsResource.equal a b) :=
  ⟨collectStep_discarded_iff eq skip g lastL r,
   fun h => collectStep_nodes_of_not_dup eq skip g lastL r (by rw [h]; simp),
   collect_pairwise_distinct eq skip rs g lastL hdist,
   cssResource_equal_withCalcs, jsResource_equal_withCalcs⟩

theorem C7_witness :
    List.Pairwise (fun a b => cssResource.equal b a = false)
      (List.foldl (collectStep cssResource.equal cssSkip) (⟨[], []⟩, none)
        [cssResource.inl { TemplatePath := "a" }
           { CSSLinkRelationCalculator := some (fun _ => .before) },
         cssResource.inl { TemplatePath := "a" } {}]).1.nodes ∧
    (List.foldl (collectStep cssResource.equal cssSkip) (⟨[], []⟩, none)
      [cssResource.inl { TemplatePath := "a" }
         { CSSLinkRelationCalculator := some (fun _ => .before) },
       cssResource.inl { TemplatePath := "a" } {}]).1.nodes.length = 1 :=
  ⟨(C7_dedup_first_wins cssResource.equal cssSkip ⟨[], []⟩ none
      (cssResource.inl { TemplatePath := "a" } {})
      [cssResource.inl { TemplatePath := "a" }
         { CSSLinkRelationCalculator := some (fun _ => .before) },
       cssResource.inl { TemplatePath := "a" } {}]
      List.Pairwise.nil).2.2.1, rfl⟩

/-- Claim C8 (amended): a CSSInline or JSInline whose `TemplatePath` is
empty or whitespace is NOT rejected before entering the dependency graph —
it becomes a graph node like any other resource (the collection phase
performs no validation) — and the validation error
(`ErrCSSInlineTemplatePathNotSet` / `ErrJSInlineTemplatePathNotSet`) is
raised later, by `getCSS` / `getJS` when the renderer loads the sorted
resources' bodies, aborting the whole render. -/
theorem C8_blank_inline_error_at_render (dir : List (String × String))
    (block : CSSInline) (calcs calcs' : CSSCalcs) (rs : List cssResource)
    (jblock : JSInline) (jcalcs : JSCalcs) (js : List jsResource)
    (hblank : trimSpaceIsEmpty block.TemplatePath = true)
    (hjblank : trimSpaceIsEmpty jblock.TemplatePath = true)
    (hmem : cssResource.inl block calcs ∈ rs)
    (hjmem : jsResource.inl jblock jcalcs ∈ js) :
    (buildGraphsCSS [{ EmbedCSS := some [(block, calcs')] }]).nodes =
      [cssResource.inl block calcs'] ∧
    cssResource.getCSS (.inl block calcs) dir =
      .error .cssInlineTemplatePathNotSet ∧
    jsResource.getJS (.inl jblock jcalcs) dir =
      .error .jsInlineTemplatePathNotSet ∧
    parseCSSResources dir rs ≠ .ok () ∧
    parseJSResources dir js ≠ .ok () := by
  have hcss : cssResource.getCSS (.inl block calcs) dir =
      .error .cssInlineTemplatePathNotSet := by
    show block.getCSS dir = _
    unfold CSSInline.getCSS
    rw [if_pos hblank]
  have hjs : jsResource.getJS (.inl jblock jcalcs) dir =
      .error .jsInlineTemplatePathNotSet := by
    show jblock.getJS dir = _
    unfold JSInline.getJS
    rw [if_pos hjblank]
  refine ⟨?_, hcss, hjs,
    parseCSSResources_not_ok _ hmem ⟨_, hcss⟩,
    parseJSResources_not_ok _ hjmem ⟨_, hjs⟩⟩
  show (collectResources cssResource.equal cssSkip ⟨[], []⟩
    [cssResource.inl block calcs']).nodes = _
  show (collectStep cssResource.equal cssSkip (⟨[], []⟩, none)
    (cssResource.inl block calcs')).1.nodes = _
  rw [collectStep_nodes_of_not_dup]
  · rfl
  · simp

theorem C8_witness :
    (buildGraphsCSS [{ EmbedCSS := some [({ TemplatePath := "" }, {})] }]).nodes =
      [cssResource.inl { TemplatePath := "" } {}] ∧
    parseCSSResources [] [cssResource.inl { TemplatePath := "" } {}] ≠ .ok () ∧
    parseJSResources [] [jsResource.inl { TemplatePath := " " } {}] ≠ .ok () := by
  obtain ⟨h1, _, _, h4, h5⟩ := C8_blank_inline_error_at_render []
    { TemplatePath := "" } {} {} [cssResource.inl { TemplatePath := "" } {}]
    { TemplatePath := " " } {} [jsResource.inl { TemplatePath := " " } {}]
    (by decide) (by decide)
    (List.mem_singleton.2 rfl) (List.mem_singleton.2 rfl)
  exact ⟨h1, h4, h5⟩

/-- Claim C8 counterexample: the blank-path inline resource DOES become a
node of the graph (the build performs no validation and returns the graph
with the invalid resource in it), refuting "such a resource never becomes
a node of any of the three graphs"; its identity error only appears when
its body is loaded. -/
theorem C8_counterexample :
    (buildGraphsCSS [{ EmbedCSS := some [({ TemplatePath := "" }, {})] }]).nodes.length
      = 1 ∧
    cssResource.getCSS (cssResource.inl { TemplatePath := "" } {}) [] =
      .error .cssInlineTemplatePathNotSet :=
  ⟨rfl, rfl⟩

/-- Claim C5: in the CSS explicit-edge phase, for a node `rp` at position
`p` and a candidate `rq` at position `q`, a `Before` verdict of `rp`'s
matching calculator on `rq` adds the edge `(q, p)` (the candidate depends
on this node), an `After` verdict adds `(p, q)`, and the edge set the
phase returns contains exactly the starting edges plus the
verdict-derived ones (so `Neutral` and absent calculators add nothing);
consequently in every successfully sorted output, `Before` puts `p`
strictly before `q` and `After` strictly after. -/
theorem C5_explicit_relation (nodes : List cssResource)
    (E : List (Nat × Nat)) (p q : Nat) (rp rq : cssResource)
    (hp : nodes[p]? = some rp) (hq : nodes[q]? = some rq)
    (hnd : E.Nodup)
    (hwfE : ∀ e ∈ E, e.1 < nodes.length ∧ e.2 < nodes.length) :
    (cssVerdict rp rq = some .before → (q, p) ∈ cssExplicitEdges nodes E) ∧
    (cssVerdict rp rq = some .after → (p, q) ∈ cssExplicitEdges nodes E) ∧
    (∀ f, f ∈ cssExplicitEdges nodes E ↔ f ∈ E ∨ explicitDerived nodes f) ∧
    (∀ res, walkGraphPos sortNodesCSS cssResourceID
        ⟨nodes, cssExplicitEdges nodes E⟩ = .ok res →
      (cssVerdict rp rq = some .before → before res p q) ∧
      (cssVerdict rp rq = some .after → before res q p)) := by
  have hbef : cssVerdict rp rq = some .before →
      (q, p) ∈ cssExplicitEdges nodes E :=
    fun hv => mem_cssExplicitEdges.2 (Or.inr (Or.inr ⟨rp, rq, hp, hq, hv⟩))
  have haft : cssVerdict rp rq = some .after →
      (p, q) ∈ cssExplicitEdges nodes E :=
    fun hv => mem_cssExplicitEdges.2 (Or.inr (Or.inl ⟨rp, rq, hp, hq, hv⟩))
  refine ⟨hbef, haft, fun _ => mem_cssExplicitEdges, ?_⟩
  intro res hok
  have hwf : GraphWF (⟨nodes, cssExplicitEdges nodes E⟩ : Graph cssResource) :=
    ⟨nodup_cssExplicitEdges hnd, cssExplicitEdges_wf hwfE⟩
  obtain ⟨_, htopo⟩ := walkGraphPos_ok hwf hok
  exact ⟨fun hv => htopo (q, p) (hbef hv), fun hv => htopo (p, q) (haft hv)⟩

theorem C5_witness :
    (1, 0) ∈ cssExplicitEdges
      [cssResource.lnk { Href := "b" }
         { CSSLinkRelationCalculator :=
             some (fun tag => if tag.Href == "a" then .before else .neutral) },
       cssResource.lnk { Href := "a" } {}] [] ∧
    before [0, 1] 0 1 := by
  obtain ⟨hbef, _, _, hwalk⟩ := C5_explicit_relation
    [cssResource.lnk { Href := "b" }
       { CSSLinkRelationCalculator :=
           some (fun tag => if tag.Href == "a" then .before else .neutral) },
     cssResource.lnk { Href := "a" } {}] [] 0 1 _ _ rfl rfl
    List.nodup_nil (fun e he => absurd he (List.not_mem_nil e))
  exact ⟨hbef rfl, (hwalk [0, 1] rfl).1 rfl⟩

/-- Claim C10: the JavaScript explicit-edge phases invoke the calculator
matching each candidate's concrete kind with no nil check, so a JS node
carrying at least one calculator that shares a graph with a candidate
whose matching calculator is nil makes the phase dereference a nil
function — modelled as `none` — and `buildGraphs` does not complete
(models the Go runtime panic); the CSS phase, by contrast, skips such
candidates, remaining a total function whose result holds exactly the
starting plus verdict-derived edges. -/
theorem C10_js_nil_calculator (comps : List Component) (p : Nat)
    (resource : jsResource)
    (hmem : (buildGraphsCollect comps).headJS.nodes[p]? = some resource)
    (hsome : resource.linkCalc.isSome = true ∨
      resource.inlineCalc.isSome = true)
    (hbad : ∃ cand ∈ (buildGraphsCollect comps).headJS.nodes,
      jsVerdict resource cand = none) :
    jsExplicitEdges (buildGraphsCollect comps).headJS.nodes
      (buildGraphsCollect comps).headJS.edges = none ∧
    buildGraphs comps = none ∧
    (∀ (cnodes : List cssResource) (CE : List (Nat × Nat)) (f : Nat × Nat),
      f ∈ cssExplicitEdges cnodes CE ↔ f ∈ CE ∨ explicitDerived cnodes f) := by
  have h : jsExplicitEdges (buildGraphsCollect comps).headJS.nodes
      (buildGraphsCollect comps).headJS.edges = none :=
    jsExplicitEdges_none hmem hsome hbad
  exact ⟨h, buildGraphs_none_of_headJS comps h,
    fun _ _ _ => mem_cssExplicitEdges⟩

theorem C10_witness :
    buildGraphs [{ LinkJS := some [({ Src := "a" },
      { JSInlineRelationCalculator := some (fun _ => .before) })] }] = none := by
  have hc : jsResource.lnk { Src := "a" }
      { JSInlineRelationCalculator := some (fun _ => .before) } ∈
      (buildGraphsCollect [{ LinkJS := some [({ Src := "a" },
        { JSInlineRelationCalculator := some (fun _ => .before) })] }]).headJS.nodes := by
    show _ ∈ [jsResource.lnk { Src := "a" }
      { JSInlineRelationCalculator := some (fun _ => .before) }]
    exact List.mem_singleton.2 rfl
  exact (C10_js_nil_calculator
    [{ LinkJS := some [({ Src := "a" },
      { JSInlineRelationCalculator := some (fun _ => .before) })] }] 0
    (jsResource.lnk { Src := "a" }
      { JSInlineRelationCalculator := some (fun _ => .before) })
    rfl (Or.inr rfl) ⟨_, hc, rfl⟩).2.1

/-- Claim C2 (amended): for two resource graphs holding the same nodes
and the same edges up to a renumbering `π` of the node positions (any
insertion order), `walkGraph` produces the identical output sequence —
PROVIDED the canonical comparator separates every pair of distinct node
positions of the graph (`hanti`).  Without that proviso the claim fails:
two distinct nodes can compare equal (CSS links are compared by `Href`
only), and the unspecified tie order then follows insertion order. -/
theorem C2_deterministic_output (g g' : Graph cssResource) (π σ : Nat → Nat)
    (hnodes : ∀ i, i < g.nodes.length →
      g'.nodes.getD (π i) default = g.nodes.getD i default)
    (hn : g'.nodes.length = g.nodes.length)
    (hπ : ∀ i, i < g.nodes.length → π i < g.nodes.length)
    (hσ : ∀ j, j < g.nodes.length → σ j < g.nodes.length)
    (hinv1 : ∀ i, i < g.nodes.length → σ (π i) = i)
    (hinv2 : ∀ j, j < g.nodes.length → π (σ j) = j)
    (hanti : ∀ a b, a < g.nodes.length → b < g.nodes.length →
      sortNodesByPos sortNodesCSS g.nodes a b = true →
      sortNodesByPos sortNodesCSS g.nodes b a = true → a = b)
    (hwf : GraphWF g) (hwf' : GraphWF g')
    (hfwd : ∀ e ∈ g.edges, (π e.1, π e.2) ∈ g'.edges)
    (hbwd : ∀ e' ∈ g'.edges, (σ e'.1, σ e'.2) ∈ g.edges)
    {res : List cssResource}
    (hok : walkGraph sortNodesCSS cssResourceID g = .ok res) :
    walkGraph sortNodesCSS cssResourceID g' = .ok res := by
  rw [walkGraph_eq] at hok
  cases hpos : walkGraphPos sortNodesCSS cssResourceID g with
  | error err =>
    rw [hpos] at hok
    exact absurd hok (by simp [Except.map])
  | ok pres =>
    rw [hpos] at hok
    have hres : pres.map (fun p => g.nodes.getD p default) = res := by
      simp only [Except.map] at hok
      injection hok
    have hπres := walkGraphPos_map sortNodesCSS cssResourceID g g' π σ
      hnodes hn hπ hσ hinv1 hinv2 sortNodesCSS_total sortNodesCSS_trans
      hanti hwf hwf' hfwd hbwd hpos
    rw [walkGraph_eq, hπres]
    show Except.ok ((pres.map π).map (fun p => g'.nodes.getD p default)) =
      Except.ok res
    rw [List.map_map]
    have hmem : ∀ p ∈ pres, p < g.nodes.length := by
      have hperm := (walkGraphPos_ok hwf hpos).1
      intro p hp
      exact List.mem_range.1 (hperm.mem_iff.1 hp)
    have hcongr : pres.map ((fun p => g'.nodes.getD p default) ∘ π) =
        pres.map (fun p => g.nodes.getD p default) := by
      refine List.map_congr_left ?_
      intro p hp
      exact hnodes p (hmem p hp)
    rw [hcongr, hres]

theorem C2_witness :
    walkGraph sortNodesCSS cssResourceID
      ⟨[cssResource.lnk { Href := "b" } {}, cssResource.lnk { Href := "a" } {}],
       []⟩ =
      .ok [cssResource.lnk { Href := "a" } {},
           cssResource.lnk { Href := "b" } {}] := by
  refine C2_deterministic_output
    ⟨[cssResource.lnk { Href := "a" } {}, cssResource.lnk { Href := "b" } {}],
     []⟩
    ⟨[cssResource.lnk { Href := "b" } {}, cssResource.lnk { Href := "a" } {}],
     []⟩
    (fun i => 1 - i) (fun j => 1 - j)
    ?_ rfl ?_ ?_ ?_ ?_ ?_ ?_ ?_ ?_ ?_ rfl
  · intro i hi
    have hi2 : i < 2 := hi
    interval_cases i <;> rfl
  · intro i hi
    show 1 - i < 2
    omega
  · intro j hj
    show 1 - j < 2
    omega
  · intro i hi
    have hi2 : i < 2 := hi
    show 1 - (1 - i) = i
    omega
  · intro j hj
    have hj2 : j < 2 := hj
    show 1 - (1 - j) = j
    omega
  · intro a b ha hb h1 h2
    have ha2 : a < 2 := ha
    have hb2 : b < 2 := hb
    interval_cases a <;> interval_cases b <;>
      first
        | rfl
        | (exfalso; revert h1 h2; decide)
  · exact ⟨List.nodup_nil, fun e he => absurd he (List.not_mem_nil e)⟩
  · exact ⟨List.nodup_nil, fun e he => absurd he (List.not_mem_nil e)⟩
  · intro e he
    exact absurd he (List.not_mem_nil e)
  · intro e he
    exact absurd he (List.not_mem_nil e)

/-- Claim C2 counterexample: two graphs holding the same two nodes (in
swapped insertion order) and the same empty edge set sort to DIFFERENT
output sequences.  The two nodes are distinct CSS links (`Media` differs)
with the same `Href`, so the canonical comparator ties them and the
unspecified tie order follows insertion order, refuting byte-identical
output for identical node/edge sets. -/
theorem C2_counterexample :
    List.Perm
      ([cssResource.lnk { Href := "u", Media := "m1" } {},
        cssResource.lnk { Href := "u", Media := "m2" } {}])
      [cssResource.lnk { Href := "u", Media := "m2" } {},
       cssResource.lnk { Href := "u", Media := "m1" } {}] ∧
    walkGraph sortNodesCSS cssResourceID
      ⟨[cssResource.lnk { Href := "u", Media := "m1" } {},
        cssResource.lnk { Href := "u", Media := "m2" } {}], []⟩ =
      .ok [cssResource.lnk { Href := "u", Media := "m1" } {},
           cssResource.lnk { Href := "u", Media := "m2" } {}] ∧
    walkGraph sortNodesCSS cssResourceID
      ⟨[cssResource.lnk { Href := "u", Media := "m2" } {},
        cssResource.lnk { Href := "u", Media := "m1" } {}], []⟩ =
      .ok [cssResource.lnk { Href := "u", Media := "m2" } {},
           cssResource.lnk { Href := "u", Media := "m1" } {}] ∧
    ({ Href := "u", Media := "m1" } : CSSLink) ≠
      { Href := "u", Media := "m2" } :=
  ⟨List.Perm.swap _ _ _, rfl, rfl, by decide⟩

end Temple
